import Mathlib

/-!
Verification of the cz-name-checker pipeline (src/app.py).

Python strings are embedded as `List Char`.  Pure functions of the source
(`norm_core`, `strip_diacritics`, the ARES retry client, the robust search
with dedup, the similarity maximiser and the strict filter loop) are
translated directly.  External effects (HTTP fetch, the AI generator, the
rapidfuzz metrics) are parameters of the corresponding definitions, since
they are third-party code; where a concrete value of such a parameter is
needed it is documented at the definition.
-/

set_option autoImplicit false

namespace CzName

/-- Python strings, embedded as lists of characters. -/
abbrev Str := List Char

/-- Turn a Lean string literal into the embedded representation. -/
def toS (s : String) : Str := s.data

/-- The whitespace characters recognised by `str.strip` / `str.split` /
`\s` (restricted to the ASCII whitespace actually reachable here). -/
def isWsC (c : Char) : Bool :=
  c.toNat = 32 || c.toNat = 9 || c.toNat = 10 || c.toNat = 13 ||
  c.toNat = 11 || c.toNat = 12

/-- ASCII alphanumeric: the class `[0-9a-zA-Z]` of the regex in
`norm_core` (code points of `0`–`9`, `a`–`z`, `A`–`Z`). -/
def isAlnumA (c : Char) : Bool :=
  (48 ≤ c.toNat && c.toNat ≤ 57) || (97 ≤ c.toNat && c.toNat ≤ 122) ||
  (65 ≤ c.toNat && c.toNat ≤ 90)

/-- `str.lower` on the ASCII range (`A`–`Z` are the code points 65–90;
characters outside that range are kept — the accented characters appearing
in the concrete inputs below are already lower case, so this matches
Python there). -/
def py_lower (c : Char) : Char :=
  if 65 ≤ c.toNat ∧ c.toNat ≤ 90 then Char.ofNat (c.toNat + 32) else c

/-- `str.strip()`: drop leading and trailing whitespace. -/
def stripL (s : Str) : Str :=
  ((s.dropWhile isWsC).reverse.dropWhile isWsC).reverse

/-- Combining diacritical marks (Unicode block U+0300–U+036F, the marks of
category `Mn` produced by the decompositions in `dtable`). -/
def combiningMark (c : Char) : Bool :=
  0x300 ≤ c.toNat && c.toNat ≤ 0x36F

/-- U+0301 combining acute accent. -/
def acuteM : Char := Char.ofNat 0x301

/-- U+030C combining caron. -/
def caronM : Char := Char.ofNat 0x30C

/-- U+030A combining ring above. -/
def ringM : Char := Char.ofNat 0x30A

/-- Modelled from the library: the NFD decompositions used by
`unicodedata.normalize("NFD", ·)`, restricted to the lower-case Czech
letters; every other character (in particular all of ASCII) decomposes to
itself. -/
def dtable : List (Char × Char × Char) :=
  [('á', 'a', acuteM), ('é', 'e', acuteM), ('í', 'i', acuteM),
   ('ó', 'o', acuteM), ('ú', 'u', acuteM), ('ý', 'y', acuteM),
   ('č', 'c', caronM), ('ď', 'd', caronM), ('ě', 'e', caronM),
   ('ň', 'n', caronM), ('ř', 'r', caronM), ('š', 's', caronM),
   ('ť', 't', caronM), ('ž', 'z', caronM), ('ů', 'u', ringM)]

/-- NFD decomposition of one character (see `dtable`). -/
def decompC (c : Char) : List Char :=
  match dtable.find? (fun e => e.1 = c) with
  | some e => [e.2.1, e.2.2]
  | none => [c]

/-- `strip_diacritics` of src/app.py: NFD-decompose, then drop the
combining marks. -/
def strip_diacritics (s : Str) : Str :=
  (s.map decompC).flatten.filter (fun c => !combiningMark c)

/-- `pat` is a prefix of the first argument (executable). -/
def startsWithL : Str → Str → Bool
  | _, [] => true
  | [], _ :: _ => false
  | c :: cs, p :: ps => c = p && startsWithL cs ps

/-- `pat` occurs as a contiguous substring (executable). -/
def occursB (pat : Str) : Str → Bool
  | [] => startsWithL [] pat
  | c :: cs => startsWithL (c :: cs) pat || occursB pat cs

/-- `str.replace(pat, rep)` with explicit fuel (the fuel is always at
least the length of the string, see `replace1`): scan left to right,
replace each non-overlapping occurrence of `pat`.  An empty `pat` never
arises from the source; it is treated as matching nowhere. -/
def replaceFuel (pat rep : Str) : ℕ → Str → Str
  | 0, s => s
  | _ + 1, [] => []
  | f + 1, c :: cs =>
    if startsWithL (c :: cs) pat = true ∧ pat ≠ [] then
      rep ++ replaceFuel pat rep f (List.drop pat.length (c :: cs))
    else
      c :: replaceFuel pat rep f cs

/-- `str.replace(pat, rep)`. -/
def replace1 (pat rep s : Str) : Str := replaceFuel pat rep s.length s

/-- `str.split()` with explicit fuel (the fuel is always at least the
length of the string, see `words`): maximal whitespace-free runs. -/
def wordsFuel : ℕ → Str → List Str
  | 0, _ => []
  | _ + 1, [] => []
  | f + 1, c :: cs =>
    if isWsC c = true then wordsFuel f cs
    else (c :: cs.takeWhile (fun d => !isWsC d)) ::
      wordsFuel f (cs.dropWhile (fun d => !isWsC d))

/-- `str.split()` (split on whitespace runs, no empty tokens). -/
def words (s : Str) : List Str := wordsFuel s.length s

/-- `" ".join(ws)`. -/
def joinSpace : List Str → Str
  | [] => []
  | [w] => w
  | w :: ws => w ++ ' ' :: joinSpace ws

/-- `LEGAL_SUFFIXES` of src/app.py (same order — the replacements are
applied in list order). -/
def LEGAL_SUFFIXES : List Str :=
  [toS "s.r.o.", toS "sro", toS "a.s.", toS "as", toS "k.s.", toS "ks",
   toS "v.o.s.", toS "vos", toS "spol. s r.o.", toS "spol s r o"]

/-- `GENERIC_WORDS` of src/app.py. -/
def GENERIC_WORDS : List Str :=
  [toS "cz", toS "czech", toS "praha", toS "brno", toS "plzen",
   toS "ostrava", toS "group", toS "holding", toS "solutions",
   toS "consulting", toS "system", toS "systems", toS "technology",
   toS "technologies", toS "services", toS "service", toS "studio",
   toS "company", toS "co", toS "global", toS "international",
   toS "advisory", toS "adviser", toS "advisers", toS "media",
   toS "marketing", toS "agency", toS "digital"]

/-- The character substitution of `re.sub(r"[^0-9a-zA-Z\s]", " ", s)`. -/
def pySub (c : Char) : Char := if isAlnumA c || isWsC c then c else ' '

/-- `norm_core` of src/app.py: lower-case and trim, strip diacritics,
delete the legal-suffix substrings, turn every other non-alphanumeric
character into a space, collapse whitespace, drop generic words. -/
def norm_core (name : Str) : Str :=
  if name = [] then []
  else
    let s1 := stripL (name.map py_lower)
    let s2 := strip_diacritics s1
    let s3 := LEGAL_SUFFIXES.foldl (fun t suf => replace1 suf [' '] t) s2
    let s4 := s3.map pySub
    let s5 := joinSpace (words s4)
    let parts := (words s5).filter (fun p => p ∉ GENERIC_WORDS)
    joinSpace parts

/-- A registry record `{"name": ..., "ico": ...}` as built by `ares_query`. -/
structure RegRec where
  name : Str
  ico : Option Str
deriving DecidableEq

/-- One raw JSON entry of the ARES response body, with the fields
`ares_query` reads. -/
structure RawItem where
  obchodniJmeno : Option Str
  obchodniJmenoText : Option Str
  ico : Option Str
deriving DecidableEq

/-- Python's `a or b` on optional strings (`None` and `""` are falsy). -/
def pyOr (a b : Option Str) : Option Str :=
  match a with
  | some s => if s = [] then b else some s
  | none => b

/-- Python truthiness of an optional string. -/
def truthyS : Option Str → Bool
  | none => false
  | some s => s ≠ []

/-- The body of the item loop of `ares_query`: keep an entry iff
`it.get("obchodniJmeno") or it.get("obchodniJmenoText")` is truthy. -/
def parse_items (items : List RawItem) : List RegRec :=
  items.filterMap (fun it =>
    let of := pyOr it.obchodniJmeno it.obchodniJmenoText
    match of with
    | some s => if s = [] then none else some ⟨s, it.ico⟩
    | none => none)

/-- Observable side effects of `ares_query`: `time.sleep(d)` and
`st.warning(...)`. -/
inductive Ev where
  | slept (d : ℚ)
  | warned
deriving DecidableEq

/-- The retry loop of `ares_query` (`for attempt in range(3)`), with the
HTTP fetch + parse of one attempt abstracted as `fetch` (an exception
anywhere in the `try` block — network error, `raise_for_status`, JSON
decoding — is an `Except.error`).  `remaining` counts the attempts still
allowed, `a` is the current attempt index. -/
def ares_loop (fetch : ℕ → Except Str (List RawItem)) :
    ℕ → ℕ → List Ev → List RegRec × List Ev
  | 0, _, evs => ([], evs ++ [Ev.warned])
  | r + 1, a, evs =>
    match fetch a with
    | Except.ok items => (parse_items items, evs)
    | Except.error _ =>
      ares_loop fetch r (a + 1) (evs ++ [Ev.slept ((6 / 5 : ℚ) * 2 ^ a)])

/-- `ares_query` of src/app.py: three attempts, sleeping
`1.2 * 2 ** attempt` seconds after each failure, returning `[]` plus a
warning after the last failure. -/
def ares_query (fetch : ℕ → Except Str (List RawItem)) :
    List RegRec × List Ev :=
  ares_loop fetch 3 0 []

/-- The dedup loop of `ares_search_robust` (`dedup = {}` / first-seen wins
per non-empty normalised core), with `ks` the keys already present. -/
def dedupAux : List RegRec → List Str → List RegRec
  | [], _ => []
  | h :: t, ks =>
    let k := norm_core h.name
    if k = [] ∨ k ∈ ks then dedupAux t ks
    else h :: dedupAux t (k :: ks)

/-- `dedup` step of `ares_search_robust`: keep the first record for each
distinct non-empty normalised core, in order. -/
def dedup_by_core (hits : List RegRec) : List RegRec := dedupAux hits []

/-- The query-term list built by `ares_search_robust`: full candidate,
diacritic-stripped candidate, first core word, first two core words. -/
def build_queries (candidate : Str) : List Str :=
  let full := stripL candidate
  let cw := words (norm_core candidate)
  [full, strip_diacritics full]
    ++ (match cw with | [] => [] | w :: _ => [w])
    ++ (match cw with | w1 :: w2 :: _ => [joinSpace [w1, w2]] | _ => [])

/-- The query loop of `ares_search_robust`: skip blank terms and terms
whose lower-cased form was already used, otherwise call the registry
(`qf`), accumulate and dedup.  Also records the terms actually sent
(`calls`) so that the no-duplicate-call property can be stated. -/
def robust_loop (qf : Str → List RegRec) :
    List Str → List Str → List RegRec → List Str → List RegRec × List Str
  | [], _, hits, calls => (hits, calls)
  | q :: qs, seen, hits, calls =>
    let q' := stripL q
    if q' = [] ∨ q'.map py_lower ∈ seen then
      robust_loop qf qs seen hits calls
    else
      robust_loop qf qs (q'.map py_lower :: seen)
        (dedup_by_core (hits ++ qf q')) (calls ++ [q'])

/-- `ares_search_robust` of src/app.py, the returned record list. -/
def ares_search_robust (qf : Str → List RegRec) (candidate : Str) :
    List RegRec :=
  (robust_loop qf (build_queries candidate) [] [] []).1

/-- The registry queries actually issued by `ares_search_robust`. -/
def robust_calls (qf : Str → List RegRec) (candidate : Str) : List Str :=
  (robust_loop qf (build_queries candidate) [] [] []).2

/-- `process.extractOne(candidate, names, scorer=sc)` of rapidfuzz: the
name with the maximal score under `sc` (first one wins on ties), with its
score.  `none` only for an empty name list. -/
def extractOne (sc : Str → Str → ℚ) (candidate : Str) (names : List Str) :
    Option (Str × ℚ) :=
  match names with
  | [] => none
  | n :: ns =>
    some (ns.foldl
      (fun acc n' => if sc candidate n' > acc.2 then (n', sc candidate n') else acc)
      (n, sc candidate n))

/-- `max_similarity` of src/app.py, with the four rapidfuzz metrics
abstracted as the list `scorers` (they are library code; all their values
lie in `[0, 100]`). -/
def max_similarity (scorers : List (Str → Str → ℚ)) (candidate : Str)
    (corpus : List RegRec) : ℚ × Option Str :=
  let names := corpus.map RegRec.name
  if names = [] then (0, none)
  else
    scorers.foldl
      (fun acc sc =>
        match extractOne sc candidate names with
        | some (m, score) => if score > acc.1 then (score, some m) else acc
        | none => acc)
      (0, none)

/-- The scorer fold of `max_similarity` (the `for sc in scorers` loop with
accumulator `(max_s, best_match)`), named so that its invariants can be
stated; `max_similarity` is definitionally this fold after the
empty-corpus guard. -/
def msimStep (candidate : Str) (names : List Str)
    (scorers : List (Str → Str → ℚ)) (acc : ℚ × Option Str) :
    ℚ × Option Str :=
  scorers.foldl
    (fun acc sc =>
      match extractOne sc candidate names with
      | some (m, score) => if score > acc.1 then (score, some m) else acc
      | none => acc)
    acc

/-- The best score of one metric over a name list (the score component of
`process.extractOne`); `0` for an empty list. -/
def metricBest (sc : Str → Str → ℚ) (candidate : Str) : List Str → ℚ
  | [] => 0
  | n :: ns => ns.foldl (fun a n' => max a (sc candidate n')) (sc candidate n)

/-- Follows the spec's words ("the verdict's score is the maximum across
all four metrics' best scores"): the maximum over the metrics of each
metric's best score over the name list. -/
def specMax (scorers : List (Str → Str → ℚ)) (candidate : Str)
    (names : List Str) : ℚ :=
  match scorers with
  | [] => 0
  | sc :: rest =>
    rest.foldl (fun a s => max a (metricBest s candidate names))
      (metricBest sc candidate names)

/-- The two labels the code can attach to a candidate (the strings
`"✅ Volné (bez blízkých shod)"` and `"⚠️ Podobné …"`). -/
inductive Label where
  | free
  | similar
deriving DecidableEq

/-- The classification of src/app.py (both modes):
`score < free_threshold` means free, anything else similar. -/
def classify_report (score thr : ℚ) : Label :=
  if score < thr then Label.free else Label.similar

/-- Severity order on the labels the code can produce. -/
def severity : Label → ℕ
  | Label.free => 0
  | Label.similar => 1

/-- One row of the strict-filter output (the dict appended in
`generate_safe_free_names`; the constant status string is omitted and the
score is kept unrounded — the code rounds it only for display). -/
structure SafeRow where
  cand : Str
  matched : Option Str
  score : ℚ
deriving DecidableEq

/-- Scoring of one candidate as done inside both loops of src/app.py:
`max_similarity(cand, ares_search_robust(cand))`. -/
def check_candidate (scorers : List (Str → Str → ℚ))
    (qf : Str → List RegRec) (cand : Str) : ℚ × Option Str :=
  max_similarity scorers cand (ares_search_robust qf cand)

/-- The inner `for cand in candidates` loop of `generate_safe_free_names`:
keep a candidate iff its score is strictly below the threshold, stop as
soon as `desired` results are collected. -/
def process_batch (scorers : List (Str → Str → ℚ))
    (qf : Str → List RegRec) (thr : ℚ) (desired : ℕ) :
    List Str → List SafeRow → List SafeRow
  | [], results => results
  | c :: cs, results =>
    let v := check_candidate scorers qf c
    let results' :=
      if v.1 < thr then results ++ [⟨c, v.2, v.1⟩] else results
    if desired ≤ results'.length then results'
    else process_batch scorers qf thr desired cs results'

/-- The `while len(results) < desired and attempts < 6` loop of
`generate_safe_free_names`; `fuel = 6 - attempts` and `gen r` is the
candidate batch produced by the AI generator in round `r`. -/
def safe_loop (gen : ℕ → List Str) (scorers : List (Str → Str → ℚ))
    (qf : Str → List RegRec) (thr : ℚ) (desired : ℕ) :
    ℕ → ℕ → List SafeRow → List SafeRow
  | 0, _, results => results
  | fuel + 1, attempts, results =>
    if results.length < desired then
      safe_loop gen scorers qf thr desired fuel (attempts + 1)
        (process_batch scorers qf thr desired (gen (attempts + 1)) results)
    else results

/-- `generate_safe_free_names` of src/app.py, with the AI generator
abstracted as `gen` (round number → candidates) and the registry and the
metrics abstracted as in `check_candidate`. -/
def generate_safe_free_names (gen : ℕ → List Str)
    (scorers : List (Str → Str → ℚ)) (qf : Str → List RegRec)
    (thr : ℚ) (desired : ℕ) : List SafeRow :=
  safe_loop gen scorers qf thr desired 6 0 []

/-- Models the rapidfuzz metrics on two strings with no character in
common (for example `"abc"` against `"xyz"`): token-set ratio, token-sort
ratio, partial ratio and QRatio are all `0` there. -/
def zeroScorer : Str → Str → ℚ := fun _ _ => 0

/-- Models a rapidfuzz metric returning the constant value `v`; used with
`v = 60` for the pair `"Acme Praha"` / `"Acme Group"`, where the four
metrics all score ≈ 57–60 (shared token `Acme`), below the default free
threshold of 70. -/
def constScorer (v : ℚ) : Str → Str → ℚ := fun _ _ => v

/-- A generation capability whose every candidate is `"zzz"`. -/
def genW : ℕ → List Str := fun _ => [toS "zzz"]

/-- A registry returning the single record `"zzz"` for every query. -/
def qfW : Str → List RegRec := fun _ => [⟨toS "zzz", none⟩]

/-- A registry returning a record together with its diacritic-variant
duplicate for every query. -/
def kavQf : Str → List RegRec :=
  fun _ => [⟨toS "Kavárna", none⟩, ⟨toS "Kavarna", none⟩]

/-- The characters that can appear in the output of `norm_core`:
space, ASCII digits, ASCII lower-case letters. -/
def charsetY (c : Char) : Prop :=
  c.toNat = 32 ∨ (48 ≤ c.toNat ∧ c.toNat ≤ 57) ∨
    (97 ≤ c.toNat ∧ c.toNat ≤ 122)

instance (c : Char) : Decidable (charsetY c) := by
  unfold charsetY
  exact inferInstance

/-- Stage of `norm_core` after lower-casing, trimming and diacritic
stripping (`s` after line 50 of src/app.py). -/
def stage2 (x : Str) : Str := strip_diacritics (stripL (x.map py_lower))

/-- Stage after the legal-suffix replacements. -/
def stage3 (x : Str) : Str :=
  LEGAL_SUFFIXES.foldl (fun t suf => replace1 suf [' '] t) (stage2 x)

/-- Stage after the non-alphanumeric substitution. -/
def stage4 (x : Str) : Str := (stage3 x).map pySub

/-- Stage after whitespace collapsing (`" ".join(s.split())`). -/
def stage5 (x : Str) : Str := joinSpace (words (stage4 x))

/-- The token list of the final output (generic words removed). -/
def coreParts (x : Str) : List Str :=
  (words (stage5 x)).filter (fun p => p ∉ GENERIC_WORDS)

/-! ### Prefix / infix toolkit -/

theorem pre_nil {s : Str} : [] <+: s := ⟨s, rfl⟩

theorem pre_nil_iff {p : Str} : p <+: ([] : Str) ↔ p = [] := by
  constructor
  · rintro ⟨t, ht⟩
    exact (List.append_eq_nil.mp ht).1
  · rintro rfl
    exact pre_nil

theorem inf_of_pre {p s : Str} (h : p <+: s) : p <:+: s := by
  obtain ⟨t, ht⟩ := h
  exact ⟨[], t, by simpa using ht⟩

theorem inf_nil_iff {p : Str} : p <:+: ([] : Str) ↔ p = [] := by
  constructor
  · rintro ⟨u, v, h⟩
    rcases List.append_eq_nil.mp h with ⟨h1, -⟩
    exact (List.append_eq_nil.mp h1).2
  · rintro rfl
    exact ⟨[], [], rfl⟩

theorem inf_cons_iff {p : Str} {c : Char} {cs : Str} :
    p <:+: c :: cs ↔ p <+: c :: cs ∨ p <:+: cs := by
  constructor
  · rintro ⟨u, v, h⟩
    cases u with
    | nil => exact Or.inl ⟨v, by simpa using h⟩
    | cons x u' =>
      simp only [List.cons_append] at h
      injection h with h1 h2
      exact Or.inr ⟨u', v, h2⟩
  · rintro (⟨t, ht⟩ | ⟨u, v, h⟩)
    · exact ⟨[], t, by simpa using ht⟩
    · refine ⟨c :: u, v, ?_⟩
      simp only [List.cons_append, List.append_assoc] at h ⊢
      rw [h]

theorem inf_trans {p q s : Str} (h1 : p <:+: q) (h2 : q <:+: s) : p <:+: s := by
  obtain ⟨u, v, rfl⟩ := h1
  obtain ⟨u', v', rfl⟩ := h2
  exact ⟨u' ++ u, v ++ v', by simp⟩

theorem inf_append_right {p a b : Str} (h : p <:+: b) : p <:+: a ++ b := by
  obtain ⟨u, v, rfl⟩ := h
  exact ⟨a ++ u, v, by simp⟩

theorem inf_mem {p s : Str} {c : Char} (h : p <:+: s) (hc : c ∈ p) : c ∈ s := by
  obtain ⟨u, v, rfl⟩ := h
  simp [hc]

theorem swl_iff : ∀ (p s : Str), startsWithL s p = true ↔ p <+: s
  | [], s => by
    constructor
    · intro _
      exact pre_nil
    · intro _
      cases s <;> rfl
  | q :: ps, [] => by
    constructor
    · intro h
      simp [startsWithL] at h
    · rintro ⟨t, ht⟩
      simp at ht
  | q :: ps, c :: cs => by
    rw [startsWithL, Bool.and_eq_true, List.cons_prefix_cons]
    rw [decide_eq_true_eq, swl_iff ps cs]
    exact and_congr_left (fun _ => eq_comm)

theorem occB_iff : ∀ (p s : Str), occursB p s = true ↔ p <:+: s
  | p, [] => by
    rw [occursB, swl_iff p [], pre_nil_iff, inf_nil_iff]
  | p, c :: cs => by
    rw [occursB, Bool.or_eq_true, swl_iff p (c :: cs), occB_iff p cs, inf_cons_iff]

/-! ### Lemmas about `str.replace` -/

theorem replaceFuel_id {pat rep : Str} (hpat : pat ≠ []) :
    ∀ (f : ℕ) (s : Str), s.length ≤ f → ¬ pat <:+: s →
      replaceFuel pat rep f s = s
  | 0, s, _, _ => by simp [replaceFuel]
  | f + 1, [], _, _ => by simp [replaceFuel]
  | f + 1, c :: cs, hf, hocc => by
    have hcs : cs.length ≤ f := by
      simpa using Nat.le_of_succ_le_succ (by simpa using hf)
    have hng : ¬ (startsWithL (c :: cs) pat = true ∧ pat ≠ []) := by
      rintro ⟨h1, -⟩
      exact hocc (inf_of_pre ((swl_iff pat (c :: cs)).mp h1))
    rw [replaceFuel, if_neg hng,
      replaceFuel_id hpat f cs hcs (fun h => hocc (inf_cons_iff.mpr (Or.inr h)))]

theorem replaceFuel_pre {q : Str} :
    ∀ (f : ℕ) (u ps : Str), u.length ≤ f → ' ' ∉ ps →
      ps <+: replaceFuel q [' '] f u → ps <+: u
  | 0, u, ps, _, _, h => by simpa [replaceFuel] using h
  | f + 1, [], ps, _, _, h => by simpa [replaceFuel] using h
  | f + 1, c :: cs, ps, hf, hsp, h => by
    have hcs : cs.length ≤ f := by
      simpa using Nat.le_of_succ_le_succ (by simpa using hf)
    by_cases hg : startsWithL (c :: cs) q = true ∧ q ≠ []
    · rw [replaceFuel, if_pos hg] at h
      cases ps with
      | nil => exact pre_nil
      | cons p ps' =>
        rcases List.cons_prefix_cons.mp h with ⟨h1, -⟩
        exact absurd (h1 ▸ List.mem_cons_self p ps') hsp
    · rw [replaceFuel, if_neg hg] at h
      cases ps with
      | nil => exact pre_nil
      | cons p ps' =>
        rcases List.cons_prefix_cons.mp h with ⟨rfl, h2⟩
        exact List.cons_prefix_cons.mpr
          ⟨rfl, replaceFuel_pre f cs ps' hcs
            (fun hx => hsp (List.mem_cons_of_mem _ hx)) h2⟩

theorem replaceFuel_inf {q P : Str} (hsp : ' ' ∉ P) :
    ∀ (f : ℕ) (s : Str), s.length ≤ f →
      P <:+: replaceFuel q [' '] f s → P <:+: s
  | 0, s, _, h => by simpa [replaceFuel] using h
  | f + 1, [], _, h => by simpa [replaceFuel] using h
  | f + 1, c :: cs, hf, h => by
    have hcs : cs.length ≤ f := by
      simpa using Nat.le_of_succ_le_succ (by simpa using hf)
    by_cases hg : startsWithL (c :: cs) q = true ∧ q ≠ []
    · rw [replaceFuel, if_pos hg] at h
      rw [List.singleton_append] at h
      rcases inf_cons_iff.mp h with h1 | h2
      · cases P with
        | nil => exact inf_of_pre pre_nil
        | cons p P' =>
          rcases List.cons_prefix_cons.mp h1 with ⟨h3, -⟩
          exact absurd (h3 ▸ List.mem_cons_self p P') hsp
      · have hdl : (List.drop q.length (c :: cs)).length ≤ f := by
          rw [List.length_drop]
          have h1 : 1 ≤ q.length := by
            cases hq : q with
            | nil => exact absurd hq hg.2
            | cons a b => simp
          simp only [List.length_cons]
          omega
        have h3 := replaceFuel_inf hsp f (List.drop q.length (c :: cs)) hdl h2
        have h4 := inf_append_right (a := List.take q.length (c :: cs)) h3
        rwa [List.take_append_drop] at h4
    · rw [replaceFuel, if_neg hg] at h
      rcases inf_cons_iff.mp h with h1 | h2
      · cases P with
        | nil => exact inf_of_pre pre_nil
        | cons p P' =>
          rcases List.cons_prefix_cons.mp h1 with ⟨rfl, h3⟩
          exact inf_of_pre (List.cons_prefix_cons.mpr
            ⟨rfl, replaceFuel_pre f cs P' hcs
              (fun hx => hsp (List.mem_cons_of_mem _ hx)) h3⟩)
      · exact inf_cons_iff.mpr (Or.inr (replaceFuel_inf hsp f cs hcs h2))

theorem replaceFuel_self {P : Str} (hne : P ≠ []) (hsp : ' ' ∉ P) :
    ∀ (f : ℕ) (s : Str), s.length ≤ f → ¬ P <:+: replaceFuel P [' '] f s
  | 0, s, hf, h => by
    have : s = [] := List.eq_nil_of_length_eq_zero (Nat.le_zero.mp hf)
    subst this
    exact hne (inf_nil_iff.mp (by simpa [replaceFuel] using h))
  | f + 1, [], _, h => hne (inf_nil_iff.mp (by simpa [replaceFuel] using h))
  | f + 1, c :: cs, hf, h => by
    have hcs : cs.length ≤ f := by
      simpa using Nat.le_of_succ_le_succ (by simpa using hf)
    by_cases hg : startsWithL (c :: cs) P = true ∧ P ≠ []
    · rw [replaceFuel, if_pos hg] at h
      rw [List.singleton_append] at h
      rcases inf_cons_iff.mp h with h1 | h2
      · cases P with
        | nil => exact hne rfl
        | cons p P' =>
          rcases List.cons_prefix_cons.mp h1 with ⟨h3, -⟩
          exact absurd (h3 ▸ List.mem_cons_self p P') hsp
      · have hdl : (List.drop P.length (c :: cs)).length ≤ f := by
          rw [List.length_drop]
          have h1 : 1 ≤ P.length := by
            cases hq : P with
            | nil => exact absurd hq hne
            | cons a b => simp
          simp only [List.length_cons]
          omega
        exact replaceFuel_self hne hsp f (List.drop P.length (c :: cs)) hdl h2
    · rw [replaceFuel, if_neg hg] at h
      rcases inf_cons_iff.mp h with h1 | h2
      · cases P with
        | nil => exact hne rfl
        | cons p P' =>
          rcases List.cons_prefix_cons.mp h1 with ⟨rfl, h3⟩
          have h4 : P' <+: cs := replaceFuel_pre f cs P' hcs
            (fun hx => hsp (List.mem_cons_of_mem _ hx)) h3
          exact hg ⟨(swl_iff (p :: P') (p :: cs)).mpr
            (List.cons_prefix_cons.mpr ⟨rfl, h4⟩), hne⟩
      · exact replaceFuel_self hne hsp f cs hcs h2

theorem replaceFuel_mem {pat rep : Str} {c : Char} :
    ∀ (f : ℕ) (s : Str), c ∈ replaceFuel pat rep f s → c ∈ rep ∨ c ∈ s
  | 0, s, h => Or.inr (by simpa [replaceFuel] using h)
  | f + 1, [], h => by simp [replaceFuel] at h
  | f + 1, x :: cs, h => by
    by_cases hg : startsWithL (x :: cs) pat = true ∧ pat ≠ []
    · rw [replaceFuel, if_pos hg] at h
      rcases List.mem_append.mp h with h1 | h2
      · exact Or.inl h1
      · rcases replaceFuel_mem f (List.drop pat.length (x :: cs)) h2 with h3 | h4
        · exact Or.inl h3
        · exact Or.inr ((List.drop_sublist _ _).mem h4)
    · rw [replaceFuel, if_neg hg] at h
      rcases List.mem_cons.mp h with rfl | h2
      · exact Or.inr (List.mem_cons_self _ _)
      · rcases replaceFuel_mem f cs h2 with h3 | h4
        · exact Or.inl h3
        · exact Or.inr (List.mem_cons_of_mem _ h4)

theorem replace1_id {pat rep s : Str} (hpat : pat ≠ []) (h : ¬ pat <:+: s) :
    replace1 pat rep s = s :=
  replaceFuel_id hpat s.length s le_rfl h

theorem replace1_pre {q u ps : Str} (hsp : ' ' ∉ ps)
    (h : ps <+: replace1 q [' '] u) : ps <+: u :=
  replaceFuel_pre u.length u ps le_rfl hsp h

theorem replace1_inf {q P s : Str} (hsp : ' ' ∉ P)
    (h : P <:+: replace1 q [' '] s) : P <:+: s :=
  replaceFuel_inf hsp s.length s le_rfl h

theorem replace1_self {P : Str} (hne : P ≠ []) (hsp : ' ' ∉ P) (s : Str) :
    ¬ P <:+: replace1 P [' '] s :=
  replaceFuel_self hne hsp s.length s le_rfl

theorem replace1_mem {pat rep s : Str} {c : Char}
    (h : c ∈ replace1 pat rep s) : c ∈ rep ∨ c ∈ s :=
  replaceFuel_mem s.length s h

/-! ### Lemmas about the suffix-replacement fold of `norm_core` -/

theorem fold_repl_pres {P : Str} (hsp : ' ' ∉ P) :
    ∀ (L : List Str) (u : Str), ¬ P <:+: u →
      ¬ P <:+: L.foldl (fun t suf => replace1 suf [' '] t) u
  | [], _, h => h
  | suf :: L', u, h =>
    fold_repl_pres hsp L' (replace1 suf [' '] u)
      (fun hh => h (replace1_inf hsp hh))

theorem fold_repl_no_inf {P : Str} (hne : P ≠ []) (hsp : ' ' ∉ P) :
    ∀ (L : List Str) (u : Str), P ∈ L →
      ¬ P <:+: L.foldl (fun t suf => replace1 suf [' '] t) u := by
  intro L
  induction L with
  | nil =>
    intro u hmem
    exact absurd hmem (List.not_mem_nil P)
  | cons suf L' ih =>
    intro u hmem
    rcases List.mem_cons.mp hmem with rfl | hmem'
    · exact fold_repl_pres hsp L' _ (replace1_self hne hsp u)
    · exact ih _ hmem'

theorem fold_repl_mem {c : Char} :
    ∀ (L : List Str) (u : Str),
      c ∈ L.foldl (fun t suf => replace1 suf [' '] t) u → c = ' ' ∨ c ∈ u
  | [], _, h => Or.inr h
  | suf :: L', u, h => by
    rcases fold_repl_mem L' (replace1 suf [' '] u) h with h1 | h2
    · exact Or.inl h1
    · rcases replace1_mem h2 with h3 | h4
      · exact Or.inl (by simpa using h3)
      · exact Or.inr h4

/-! ### Lemmas about the character substitution `pySub` -/

theorem map_pySub_pre :
    ∀ (P u : Str), (∀ c ∈ P, isAlnumA c = true) → P <+: u.map pySub → P <+: u
  | [], _, _, _ => pre_nil
  | p :: P', [], _, h => by
    obtain ⟨t, ht⟩ := h
    simp at ht
  | p :: P', c :: u', hal, h => by
    rw [List.map_cons] at h
    rcases List.cons_prefix_cons.mp h with ⟨h1, h2⟩
    have hpc : p = c := by
      by_cases hin : (isAlnumA c || isWsC c) = true
      · rw [pySub, if_pos hin] at h1
        exact h1
      · rw [pySub, if_neg hin] at h1
        have hp := hal p (List.mem_cons_self p P')
        rw [h1] at hp
        exact absurd hp (by decide)
    subst hpc
    exact List.cons_prefix_cons.mpr
      ⟨rfl, map_pySub_pre P' u' (fun d hd => hal d (List.mem_cons_of_mem _ hd)) h2⟩

theorem map_pySub_inf :
    ∀ (u P : Str), (∀ c ∈ P, isAlnumA c = true) → P <:+: u.map pySub → P <:+: u
  | [], P, _, h => by simpa using h
  | c :: u', P, hal, h => by
    rw [List.map_cons] at h
    rcases inf_cons_iff.mp h with h1 | h2
    · exact inf_of_pre (map_pySub_pre P (c :: u') hal (by rwa [List.map_cons]))
    · exact inf_cons_iff.mpr (Or.inr (map_pySub_inf u' P hal h2))

/-! ### Lemmas about `str.split` and `" ".join` -/

theorem wordsFuel_irrel :
    ∀ (f g : ℕ) (s : Str), s.length ≤ f → s.length ≤ g →
      wordsFuel f s = wordsFuel g s
  | 0, g, s, hf, _ => by
    have hs : s = [] := List.eq_nil_of_length_eq_zero (Nat.le_zero.mp hf)
    subst hs
    cases g <;> simp [wordsFuel]
  | f + 1, 0, s, _, hg => by
    have hs : s = [] := List.eq_nil_of_length_eq_zero (Nat.le_zero.mp hg)
    subst hs
    simp [wordsFuel]
  | _ + 1, _ + 1, [], _, _ => by simp [wordsFuel]
  | f + 1, g + 1, c :: cs, hf, hg => by
    have hcf : cs.length ≤ f := by
      simpa using Nat.le_of_succ_le_succ (by simpa using hf)
    have hcg : cs.length ≤ g := by
      simpa using Nat.le_of_succ_le_succ (by simpa using hg)
    by_cases hw : isWsC c = true
    · rw [wordsFuel, wordsFuel, if_pos hw, if_pos hw,
        wordsFuel_irrel f g cs hcf hcg]
    · rw [wordsFuel, wordsFuel, if_neg hw, if_neg hw,
        wordsFuel_irrel f g (cs.dropWhile (fun d => !isWsC d))
          (le_trans (List.dropWhile_sublist _).length_le hcf)
          (le_trans (List.dropWhile_sublist _).length_le hcg)]

theorem words_eq_fuel {f : ℕ} {s : Str} (h : s.length ≤ f) :
    wordsFuel f s = words s :=
  wordsFuel_irrel f s.length s h le_rfl

theorem words_nil : words [] = [] := rfl

theorem words_cons_ws {c : Char} {cs : Str} (hw : isWsC c = true) :
    words (c :: cs) = words cs := by
  unfold words
  rw [List.length_cons, wordsFuel, if_pos hw]

theorem words_cons_nws {c : Char} {cs : Str} (hw : isWsC c = false) :
    words (c :: cs) =
      (c :: cs.takeWhile (fun d => !isWsC d)) ::
        words (cs.dropWhile (fun d => !isWsC d)) := by
  have h1 : words (c :: cs) = wordsFuel (cs.length + 1) (c :: cs) :=
    (words_eq_fuel (by simp)).symm
  rw [h1, wordsFuel, if_neg (by simp [hw])]
  rw [words_eq_fuel ((List.dropWhile_sublist _).length_le)]

theorem takeWhile_append_all {p : Char → Bool} :
    ∀ (w r : Str), (∀ c ∈ w, p c = true) →
      List.takeWhile p (w ++ r) = w ++ List.takeWhile p r
  | [], _, _ => rfl
  | c :: w', r, h => by
    rw [List.cons_append, List.takeWhile_cons,
      if_pos (h c (List.mem_cons_self c w')),
      takeWhile_append_all w' r (fun d hd => h d (List.mem_cons_of_mem _ hd)),
      List.cons_append]

theorem dropWhile_append_all {p : Char → Bool} :
    ∀ (w r : Str), (∀ c ∈ w, p c = true) →
      List.dropWhile p (w ++ r) = List.dropWhile p r
  | [], _, _ => rfl
  | c :: w', r, h => by
    rw [List.cons_append, List.dropWhile_cons,
      if_pos (h c (List.mem_cons_self c w')),
      dropWhile_append_all w' r (fun d hd => h d (List.mem_cons_of_mem _ hd))]

theorem wordsFuel_props :
    ∀ (f : ℕ) (s : Str), ∀ w ∈ wordsFuel f s,
      w ≠ [] ∧ ∀ c ∈ w, isWsC c = false
  | 0, s, w, h => by simp [wordsFuel] at h
  | _ + 1, [], w, h => by simp [wordsFuel] at h
  | f + 1, c :: cs, w, h => by
    by_cases hw : isWsC c = true
    · rw [wordsFuel, if_pos hw] at h
      exact wordsFuel_props f cs w h
    · rw [wordsFuel, if_neg hw] at h
      rcases List.mem_cons.mp h with rfl | h2
      · refine ⟨by simp, ?_⟩
        intro d hd
        rcases List.mem_cons.mp hd with rfl | hd2
        · simpa using hw
        · simpa using List.mem_takeWhile_imp hd2
      · exact wordsFuel_props f _ w h2

theorem words_props (s : Str) : ∀ w ∈ words s, w ≠ [] ∧ ∀ c ∈ w, isWsC c = false :=
  wordsFuel_props s.length s

theorem wordsFuel_inf :
    ∀ (f : ℕ) (s : Str), ∀ w ∈ wordsFuel f s, w <:+: s
  | 0, s, w, h => by simp [wordsFuel] at h
  | _ + 1, [], w, h => by simp [wordsFuel] at h
  | f + 1, c :: cs, w, h => by
    by_cases hw : isWsC c = true
    · rw [wordsFuel, if_pos hw] at h
      exact inf_cons_iff.mpr (Or.inr (wordsFuel_inf f cs w h))
    · rw [wordsFuel, if_neg hw] at h
      rcases List.mem_cons.mp h with rfl | h2
      · exact inf_of_pre (List.cons_prefix_cons.mpr
          ⟨rfl, ⟨_, List.takeWhile_append_dropWhile _ _⟩⟩)
      · have h3 := wordsFuel_inf f _ w h2
        have h4 := inf_append_right (a := cs.takeWhile (fun d => !isWsC d)) h3
        rw [List.takeWhile_append_dropWhile] at h4
        exact inf_cons_iff.mpr (Or.inr h4)

theorem words_inf (s : Str) : ∀ w ∈ words s, w <:+: s :=
  wordsFuel_inf s.length s

theorem words_append_space {w : Str} (hne : w ≠ [])
    (hnw : ∀ c ∈ w, isWsC c = false) (rest : Str) :
    words (w ++ ' ' :: rest) = w :: words rest := by
  cases w with
  | nil => exact absurd rfl hne
  | cons c w' =>
    have hall : ∀ d ∈ w', (fun d => !isWsC d) d = true := fun d hd => by
      simpa using hnw d (List.mem_cons_of_mem _ hd)
    rw [List.cons_append, words_cons_nws (hnw c (List.mem_cons_self c w'))]
    rw [takeWhile_append_all w' (' ' :: rest) hall,
      dropWhile_append_all w' (' ' :: rest) hall]
    rw [List.takeWhile_cons, if_neg (by decide), List.append_nil]
    rw [List.dropWhile_cons, if_neg (by decide)]
    rw [words_cons_ws (by decide)]

theorem words_all_nws {w : Str} (hne : w ≠ [])
    (hnw : ∀ c ∈ w, isWsC c = false) : words w = [w] := by
  cases w with
  | nil => exact absurd rfl hne
  | cons c w' =>
    have hall : ∀ d ∈ w', (fun d => !isWsC d) d = true := fun d hd => by
      simpa using hnw d (List.mem_cons_of_mem _ hd)
    have h1 : w'.takeWhile (fun d => !isWsC d) = w' := by
      simpa using takeWhile_append_all w' [] hall
    have h2 : w'.dropWhile (fun d => !isWsC d) = [] := by
      simpa using dropWhile_append_all w' [] hall
    rw [words_cons_nws (hnw c (List.mem_cons_self c w')), h1, h2, words_nil]

theorem words_join :
    ∀ (ws : List Str), (∀ w ∈ ws, w ≠ [] ∧ ∀ c ∈ w, isWsC c = false) →
      words (joinSpace ws) = ws
  | [], _ => rfl
  | [w], h => by
    have hw := h w (List.mem_cons_self w [])
    show words w = [w]
    exact words_all_nws hw.1 hw.2
  | w :: w2 :: rest, h => by
    have hw := h w (List.mem_cons_self w (w2 :: rest))
    have hJ : joinSpace (w :: w2 :: rest) = w ++ ' ' :: joinSpace (w2 :: rest) := rfl
    rw [hJ, words_append_space hw.1 hw.2,
      words_join (w2 :: rest) (fun w' hw' => h w' (List.mem_cons_of_mem _ hw'))]

theorem joinSpace_cons_ne_nil {w : Str} (hne : w ≠ []) (ws : List Str) :
    joinSpace (w :: ws) ≠ [] := by
  cases ws with
  | nil => simpa [joinSpace] using hne
  | cons w2 rest =>
    show w ++ ' ' :: joinSpace (w2 :: rest) ≠ []
    simp

theorem joinSpace_head {ws : List Str}
    (h : ∀ w ∈ ws, w ≠ [] ∧ ∀ c ∈ w, isWsC c = false) :
    ∀ c t, joinSpace ws = c :: t → isWsC c = false := by
  cases ws with
  | nil =>
    intro c t hh
    exact absurd hh (by simp [joinSpace])
  | cons w ws' =>
    intro c t hh
    rcases h w (List.mem_cons_self w ws') with ⟨hne, hnw⟩
    cases w with
    | nil => exact absurd rfl hne
    | cons a w'' =>
      cases ws' with
      | nil =>
        have hh2 : (a :: w'' : Str) = c :: t := hh
        injection hh2 with h1 _
        exact h1 ▸ hnw a (List.mem_cons_self a w'')
      | cons w2 rest =>
        have hJ : joinSpace ((a :: w'') :: w2 :: rest) =
            (a :: w'') ++ ' ' :: joinSpace (w2 :: rest) := rfl
        rw [hJ, List.cons_append] at hh
        injection hh with h1 _
        exact h1 ▸ hnw a (List.mem_cons_self a w'')

theorem joinSpace_last :
    ∀ (ws : List Str), (∀ w ∈ ws, w ≠ [] ∧ ∀ c ∈ w, isWsC c = false) →
      ∀ c t, (joinSpace ws).reverse = c :: t → isWsC c = false
  | [], _ => by
    intro c t hh
    simp [joinSpace] at hh
  | [w], h => by
    intro c t hh
    have hcw : c ∈ w := by
      rw [← List.mem_reverse, show joinSpace [w] = w from rfl] at *
      rw [hh]
      exact List.mem_cons_self c t
    exact (h w (List.mem_cons_self w [])).2 c hcw
  | w :: w2 :: rest, h => by
    intro c t hh
    have hJ : joinSpace (w :: w2 :: rest) = w ++ ' ' :: joinSpace (w2 :: rest) := rfl
    rw [hJ, List.reverse_append, List.reverse_cons] at hh
    have hJne : joinSpace (w2 :: rest) ≠ [] :=
      joinSpace_cons_ne_nil (h w2 (List.mem_cons_of_mem _ (List.mem_cons_self w2 rest))).1 rest
    cases hr : (joinSpace (w2 :: rest)).reverse with
    | nil => exact absurd (List.reverse_eq_nil_iff.mp hr) hJne
    | cons d ds =>
      rw [hr] at hh
      simp only [List.cons_append] at hh
      injection hh with h1 _
      exact h1 ▸ joinSpace_last (w2 :: rest)
        (fun w' hw' => h w' (List.mem_cons_of_mem _ hw')) d ds hr

theorem joinSpace_mem {c : Char} :
    ∀ (ws : List Str), c ∈ joinSpace ws → c = ' ' ∨ ∃ w ∈ ws, c ∈ w
  | [], h => by simp [joinSpace] at h
  | [w], h => Or.inr ⟨w, List.mem_cons_self w [], h⟩
  | w :: w2 :: rest, h => by
    have hJ : joinSpace (w :: w2 :: rest) = w ++ ' ' :: joinSpace (w2 :: rest) := rfl
    rw [hJ] at h
    rcases List.mem_append.mp h with h1 | h2
    · exact Or.inr ⟨w, List.mem_cons_self w _, h1⟩
    · rcases List.mem_cons.mp h2 with rfl | h3
      · exact Or.inl rfl
      · rcases joinSpace_mem (w2 :: rest) h3 with h4 | ⟨w', hw', hc⟩
        · exact Or.inl h4
        · exact Or.inr ⟨w', List.mem_cons_of_mem _ hw', hc⟩

theorem pre_split {b : Str} :
    ∀ (P a : Str), ' ' ∉ P → P <+: a ++ ' ' :: b → P <+: a
  | [], _, _, _ => pre_nil
  | p :: P', [], hsp, h => by
    rw [List.nil_append] at h
    rcases List.cons_prefix_cons.mp h with ⟨h1, -⟩
    exact absurd (h1 ▸ List.mem_cons_self p P') hsp
  | p :: P', c :: a', hsp, h => by
    rw [List.cons_append] at h
    rcases List.cons_prefix_cons.mp h with ⟨rfl, h2⟩
    exact List.cons_prefix_cons.mpr
      ⟨rfl, pre_split P' a' (fun hx => hsp (List.mem_cons_of_mem _ hx)) h2⟩

theorem inf_split {b : Str} :
    ∀ (a P : Str), ' ' ∉ P → P <:+: a ++ ' ' :: b → P <:+: a ∨ P <:+: b
  | [], P, hsp, h => by
    rw [List.nil_append] at h
    rcases inf_cons_iff.mp h with h1 | h2
    · cases P with
      | nil => exact Or.inl (inf_of_pre pre_nil)
      | cons p P' =>
        rcases List.cons_prefix_cons.mp h1 with ⟨h3, -⟩
        exact absurd (h3 ▸ List.mem_cons_self p P') hsp
    · exact Or.inr h2
  | c :: a', P, hsp, h => by
    rw [List.cons_append] at h
    rcases inf_cons_iff.mp h with h1 | h2
    · cases P with
      | nil => exact Or.inl (inf_of_pre pre_nil)
      | cons p P' =>
        rcases List.cons_prefix_cons.mp h1 with ⟨rfl, h3⟩
        exact Or.inl (inf_of_pre (List.cons_prefix_cons.mpr
          ⟨rfl, pre_split P' a' (fun hx => hsp (List.mem_cons_of_mem _ hx)) h3⟩))
    · rcases inf_split a' P hsp h2 with h3 | h4
      · exact Or.inl (inf_cons_iff.mpr (Or.inr h3))
      · exact Or.inr h4

theorem joinSpace_inf {P : Str} (hne : P ≠ []) (hsp : ' ' ∉ P) :
    ∀ (ws : List Str), P <:+: joinSpace ws → ∃ w ∈ ws, P <:+: w
  | [], h => absurd (inf_nil_iff.mp h) hne
  | [w], h => ⟨w, List.mem_cons_self w [], h⟩
  | w :: w2 :: rest, h => by
    have hJ : joinSpace (w :: w2 :: rest) = w ++ ' ' :: joinSpace (w2 :: rest) := rfl
    rw [hJ] at h
    rcases inf_split w P hsp h with h1 | h2
    · exact ⟨w, List.mem_cons_self w _, h1⟩
    · rcases joinSpace_inf hne hsp (w2 :: rest) h2 with ⟨w', hw', hP⟩
      exact ⟨w', List.mem_cons_of_mem _ hw', hP⟩

/-! ### Identity lemmas for the second normalisation pass -/

theorem strip_eq_self {s : Str}
    (h1 : ∀ c t, s = c :: t → isWsC c = false)
    (h2 : ∀ c t, s.reverse = c :: t → isWsC c = false) :
    stripL s = s := by
  cases s with
  | nil => rfl
  | cons c cs =>
    have hc : isWsC c = false := h1 c cs rfl
    rw [stripL, List.dropWhile_cons, if_neg (by simp [hc])]
    cases hr : (c :: cs).reverse with
    | nil => exact absurd (List.reverse_eq_nil_iff.mp hr) (by simp)
    | cons d ds =>
      have hd : isWsC d = false := h2 d ds hr
      rw [List.dropWhile_cons, if_neg (by simp [hd]), ← hr,
        List.reverse_reverse]

theorem map_id_of {f : Char → Char} :
    ∀ (l : Str), (∀ c ∈ l, f c = c) → l.map f = l
  | [], _ => rfl
  | c :: cs, h => by
    rw [List.map_cons, h c (List.mem_cons_self c cs),
      map_id_of cs (fun d hd => h d (List.mem_cons_of_mem _ hd))]

theorem flatten_map_singleton {g : Char → List Char} :
    ∀ (l : Str), (∀ c ∈ l, g c = [c]) → (l.map g).flatten = l
  | [], _ => rfl
  | c :: cs, h => by
    rw [List.map_cons, List.flatten_cons, h c (List.mem_cons_self c cs),
      flatten_map_singleton cs (fun d hd => h d (List.mem_cons_of_mem _ hd)),
      List.singleton_append]

/-! ### Character-class lemmas -/

theorem isAlnumA_iff {c : Char} : isAlnumA c = true ↔
    (48 ≤ c.toNat ∧ c.toNat ≤ 57) ∨ (97 ≤ c.toNat ∧ c.toNat ≤ 122) ∨
      (65 ≤ c.toNat ∧ c.toNat ≤ 90) := by
  simp [isAlnumA, Bool.or_eq_true, Bool.and_eq_true, decide_eq_true_eq,
    or_assoc]

theorem isWsC_iff {c : Char} : isWsC c = true ↔
    c.toNat = 32 ∨ c.toNat = 9 ∨ c.toNat = 10 ∨ c.toNat = 13 ∨
      c.toNat = 11 ∨ c.toNat = 12 := by
  simp [isWsC, Bool.or_eq_true, decide_eq_true_eq, or_assoc]

theorem ofNat_lower_shift :
    ∀ n, n < 91 → 65 ≤ n → (Char.ofNat (n + 32)).toNat = n + 32 := by decide

theorem py_lower_not_upper (c : Char) :
    ¬ (65 ≤ (py_lower c).toNat ∧ (py_lower c).toNat ≤ 90) := by
  rw [py_lower]
  by_cases h : 65 ≤ c.toNat ∧ c.toNat ≤ 90
  · rw [if_pos h]
    have h2 := ofNat_lower_shift c.toNat (by omega) h.1
    omega
  · rw [if_neg h]
    exact h

theorem dtable_fst_ge : ∀ e ∈ dtable, 128 ≤ e.1.toNat := by decide

theorem dtable_base_props :
    ∀ e ∈ dtable, ¬ (65 ≤ e.2.1.toNat ∧ e.2.1.toNat ≤ 90) := by decide

theorem dtable_mark_comb : ∀ e ∈ dtable, combiningMark e.2.2 = true := by
  decide

theorem decompC_ascii {c : Char} (h : c.toNat < 128) : decompC c = [c] := by
  rw [decompC]
  have hnone : dtable.find? (fun e => e.1 = c) = none := by
    rw [List.find?_eq_none]
    intro e he
    simp only [decide_eq_true_eq]
    intro heq
    have h2 := dtable_fst_ge e he
    rw [heq] at h2
    omega
  rw [hnone]

theorem decompC_chars (c c' : Char) (h : c' ∈ decompC c) :
    c' = c ∨ ∃ e ∈ dtable, c' = e.2.1 ∨ c' = e.2.2 := by
  rw [decompC] at h
  cases hf : dtable.find? (fun e => e.1 = c) with
  | none =>
    rw [hf] at h
    simp at h
    exact Or.inl h
  | some e =>
    rw [hf] at h
    have he := List.mem_of_find?_eq_some hf
    simp at h
    rcases h with rfl | rfl
    · exact Or.inr ⟨e, he, Or.inl rfl⟩
    · exact Or.inr ⟨e, he, Or.inr rfl⟩

theorem stripL_mem {c : Char} {s : Str} (h : c ∈ stripL s) : c ∈ s := by
  rw [stripL, List.mem_reverse] at h
  have h2 := (List.dropWhile_sublist isWsC).mem h
  rw [List.mem_reverse] at h2
  exact (List.dropWhile_sublist isWsC).mem h2

/-! ### The stages of `norm_core` and their invariants -/

theorem norm_core_eq (x : Str) : norm_core x = joinSpace (coreParts x) := by
  by_cases hx : x = []
  · subst hx
    rfl
  · simp only [norm_core, if_neg hx, coreParts, stage5, stage4, stage3,
      stage2]

theorem coreParts_props (x : Str) :
    ∀ w ∈ coreParts x,
      w ≠ [] ∧ (∀ c ∈ w, isWsC c = false) ∧ w ∉ GENERIC_WORDS := by
  intro w hw
  have hw' : w ∈ (words (stage5 x)).filter (fun p => p ∉ GENERIC_WORDS) := hw
  rcases List.mem_filter.mp hw' with ⟨h1, h2⟩
  have h3 := words_props _ w h1
  refine ⟨h3.1, h3.2, ?_⟩
  simpa using h2

theorem nc_words (x : Str) : words (norm_core x) = coreParts x := by
  rw [norm_core_eq]
  exact words_join _ (fun w hw =>
    ⟨(coreParts_props x w hw).1, (coreParts_props x w hw).2.1⟩)

theorem nc_join (x : Str) :
    joinSpace (words (norm_core x)) = norm_core x := by
  rw [nc_words, norm_core_eq]

theorem stage2_notUp (x : Str) :
    ∀ c ∈ stage2 x, ¬ (65 ≤ c.toNat ∧ c.toNat ≤ 90) := by
  intro c hc
  rw [stage2, strip_diacritics] at hc
  rcases List.mem_filter.mp hc with ⟨h1, h2⟩
  rcases List.mem_flatten.mp h1 with ⟨l, hl, hcl⟩
  rcases List.mem_map.mp hl with ⟨c0, hc0, rfl⟩
  rcases decompC_chars c0 c hcl with rfl | ⟨e, he, hee⟩
  · have hc0' := stripL_mem hc0
    rcases List.mem_map.mp hc0' with ⟨c1, -, rfl⟩
    exact py_lower_not_upper c1
  · rcases hee with rfl | rfl
    · exact dtable_base_props e he
    · have h3 := dtable_mark_comb e he
      simp [h3] at h2

theorem nc_charset (x : Str) : ∀ c ∈ norm_core x, charsetY c := by
  intro c hc
  rw [norm_core_eq] at hc
  rcases joinSpace_mem _ hc with rfl | ⟨w, hw, hcw⟩
  · exact Or.inl rfl
  · have hprops := coreParts_props x w hw
    have hninws : isWsC c = false := hprops.2.1 c hcw
    have hw5 : w ∈ words (stage5 x) :=
      (List.mem_filter.mp
        (show w ∈ (words (stage5 x)).filter (fun p => p ∉ GENERIC_WORDS)
          from hw)).1
    have hc5 : c ∈ stage5 x := inf_mem (words_inf _ w hw5) hcw
    rw [stage5] at hc5
    rcases joinSpace_mem _ hc5 with rfl | ⟨w4, hw4, hcw4⟩
    · exact absurd hninws (by simp [isWsC])
    · have hc4 : c ∈ stage4 x := inf_mem (words_inf _ w4 hw4) hcw4
      rw [stage4] at hc4
      rcases List.mem_map.mp hc4 with ⟨c0, hc0, hsub⟩
      by_cases hin : (isAlnumA c0 || isWsC c0) = true
      · rw [pySub, if_pos hin] at hsub
        subst hsub
        rcases (Bool.or_eq_true _ _).mp hin with hal | hws
        · have hnu : ¬ (65 ≤ c0.toNat ∧ c0.toNat ≤ 90) := by
            rcases fold_repl_mem LEGAL_SUFFIXES (stage2 x)
              (show c0 ∈ stage3 x from hc0) with h' | h'
            · subst h'
              simp [isWsC] at hninws
            · exact stage2_notUp x c0 h'
          rcases isAlnumA_iff.mp hal with h' | h' | h'
          · exact Or.inr (Or.inl h')
          · exact Or.inr (Or.inr h')
          · exact absurd h' hnu
        · rw [hws] at hninws
          cases hninws
      · rw [pySub, if_neg hin] at hsub
        subst hsub
        simp [isWsC] at hninws

theorem nc_no_suffix_alnum (x : Str) {P : Str} (hmem : P ∈ LEGAL_SUFFIXES)
    (hne : P ≠ []) (hal : ∀ c ∈ P, isAlnumA c = true) :
    ¬ P <:+: norm_core x := by
  intro h
  have hsp : ' ' ∉ P := fun hx => by
    have h2 := hal ' ' hx
    exact absurd h2 (by decide)
  rw [norm_core_eq] at h
  rcases joinSpace_inf hne hsp _ h with ⟨w, hw, hPw⟩
  have hw5 : w ∈ words (stage5 x) :=
    (List.mem_filter.mp
      (show w ∈ (words (stage5 x)).filter (fun p => p ∉ GENERIC_WORDS)
        from hw)).1
  have h5 : P <:+: stage5 x := inf_trans hPw (words_inf _ w hw5)
  rw [stage5] at h5
  rcases joinSpace_inf hne hsp _ h5 with ⟨w4, hw4, hPw4⟩
  have h4 : P <:+: stage4 x := inf_trans hPw4 (words_inf _ w4 hw4)
  rw [stage4] at h4
  have h3 : P <:+: stage3 x := map_pySub_inf _ P hal h4
  rw [stage3] at h3
  exact fold_repl_no_inf hne hsp LEGAL_SUFFIXES (stage2 x) hmem h3

theorem nc_no_char {x P : Str} (c0 : Char) (hc0 : c0 ∈ P)
    (hnc : ¬ charsetY c0) : ¬ P <:+: norm_core x :=
  fun h => hnc (nc_charset x c0 (inf_mem h hc0))

theorem fold_repl_id :
    ∀ (L : List Str) (u : Str), (∀ suf ∈ L, suf ≠ [] ∧ ¬ suf <:+: u) →
      L.foldl (fun t suf => replace1 suf [' '] t) u = u
  | [], _, _ => rfl
  | suf :: L', u, h => by
    have h1 := h suf (List.mem_cons_self suf L')
    show List.foldl _ (replace1 suf [' '] u) L' = u
    rw [replace1_id h1.1 h1.2]
    exact fold_repl_id L' u (fun s hs => h s (List.mem_cons_of_mem _ hs))

theorem charsetY_not_upper {c : Char} (h : charsetY c) :
    ¬ (65 ≤ c.toNat ∧ c.toNat ≤ 90) := by
  rcases h with h | h | h <;> omega

theorem charsetY_py_lower {c : Char} (h : charsetY c) : py_lower c = c := by
  rw [py_lower, if_neg (charsetY_not_upper h)]

theorem charsetY_decompC {c : Char} (h : charsetY c) : decompC c = [c] :=
  decompC_ascii (by rcases h with h | h | h <;> omega)

theorem charsetY_not_comb {c : Char} (h : charsetY c) :
    combiningMark c = false := by
  by_contra hne
  have h2 : combiningMark c = true := by
    cases hcm : combiningMark c
    · exact absurd hcm hne
    · rfl
  rw [combiningMark, Bool.and_eq_true, decide_eq_true_eq,
    decide_eq_true_eq] at h2
  rcases h with h | h | h <;> omega

theorem charsetY_keep {c : Char} (h : charsetY c) :
    (isAlnumA c || isWsC c) = true := by
  rcases h with h | h | h
  · exact (Bool.or_eq_true _ _).mpr (Or.inr (isWsC_iff.mpr (Or.inl h)))
  · exact (Bool.or_eq_true _ _).mpr (Or.inl (isAlnumA_iff.mpr (Or.inl h)))
  · exact (Bool.or_eq_true _ _).mpr
      (Or.inl (isAlnumA_iff.mpr (Or.inr (Or.inl h))))

theorem norm_core_fixed {x : Str}
    (hspol : ¬ (toS "spol s r o") <:+: norm_core x) :
    norm_core (norm_core x) = norm_core x := by
  set y := norm_core x with hy
  by_cases hynil : y = []
  · rw [hynil]
    rfl
  · have hcs : ∀ c ∈ y, charsetY c := by
      intro c hc
      rw [hy] at hc
      exact nc_charset x c hc
    have hwprops : ∀ w ∈ words y, w ≠ [] ∧ ∀ c ∈ w, isWsC c = false :=
      words_props y
    have hjy : joinSpace (words y) = y := by
      rw [hy]
      exact nc_join x
    have hwgen : ∀ w ∈ words y, w ∉ GENERIC_WORDS := by
      intro w hw
      rw [hy, nc_words] at hw
      exact (coreParts_props x w hw).2.2
    have hlower : y.map py_lower = y :=
      map_id_of y (fun c hc => charsetY_py_lower (hcs c hc))
    have hstrip : stripL y = y := by
      apply strip_eq_self
      · intro c t hct
        exact joinSpace_head hwprops c t (by rw [hjy]; exact hct)
      · intro c t hct
        exact joinSpace_last (words y) hwprops c t (by rw [hjy]; exact hct)
    have hsd : strip_diacritics y = y := by
      rw [strip_diacritics,
        flatten_map_singleton y (fun c hc => charsetY_decompC (hcs c hc))]
      exact List.filter_eq_self.mpr (fun c hc => by
        rw [charsetY_not_comb (hcs c hc)]
        rfl)
    have hfold :
        LEGAL_SUFFIXES.foldl (fun t suf => replace1 suf [' '] t) y = y := by
      apply fold_repl_id
      intro suf hsuf
      have hsuf' : suf ∈ LEGAL_SUFFIXES := hsuf
      simp only [LEGAL_SUFFIXES, List.mem_cons, List.not_mem_nil,
        or_false] at hsuf'
      rcases hsuf' with rfl | rfl | rfl | rfl | rfl | rfl | rfl | rfl | rfl | rfl
      · exact ⟨by decide, by
          rw [hy]; exact nc_no_char '.' (by decide) (by decide)⟩
      · exact ⟨by decide, by
          rw [hy]; exact nc_no_suffix_alnum x (by decide) (by decide) (by decide)⟩
      · exact ⟨by decide, by
          rw [hy]; exact nc_no_char '.' (by decide) (by decide)⟩
      · exact ⟨by decide, by
          rw [hy]; exact nc_no_suffix_alnum x (by decide) (by decide) (by decide)⟩
      · exact ⟨by decide, by
          rw [hy]; exact nc_no_char '.' (by decide) (by decide)⟩
      · exact ⟨by decide, by
          rw [hy]; exact nc_no_suffix_alnum x (by decide) (by decide) (by decide)⟩
      · exact ⟨by decide, by
          rw [hy]; exact nc_no_char '.' (by decide) (by decide)⟩
      · exact ⟨by decide, by
          rw [hy]; exact nc_no_suffix_alnum x (by decide) (by decide) (by decide)⟩
      · exact ⟨by decide, by
          rw [hy]; exact nc_no_char '.' (by decide) (by decide)⟩
      · exact ⟨by decide, hspol⟩
    have hmapsub : y.map pySub = y :=
      map_id_of y (fun c hc => by
        rw [pySub, if_pos (charsetY_keep (hcs c hc))])
    have hfilter :
        (words y).filter (fun p => p ∉ GENERIC_WORDS) = words y :=
      List.filter_eq_self.mpr (fun w hw => by simpa using hwgen w hw)
    show norm_core y = y
    simp only [norm_core, if_neg hynil]
    rw [hlower, hstrip, hsd, hfold, hmapsub, hjy, hfilter, hjy]

/-- C1 (counterexample): normalisation is NOT idempotent.  For the input
`"spol-s-r-o"` the first pass yields the core `"spol s r o"` (the dashes
are turned into spaces only after the suffix replacement has run), and the
second pass then deletes it entirely via the legal-suffix pattern
`"spol s r o"`, giving `""`. -/
theorem norm_core_idem_counterexample :
    norm_core (norm_core (toS "spol-s-r-o")) ≠ norm_core (toS "spol-s-r-o") := by
  decide

/-- C1 (amended): normalisation is idempotent on exactly the strings whose
normalised core does not contain the spaced legal-suffix pattern
`"spol s r o"` as a substring: for every such `x`,
`norm_core (norm_core x) = norm_core x`. -/
theorem norm_core_idempotent_amended (x : Str)
    (h : occursB (toS "spol s r o") (norm_core x) = false) :
    norm_core (norm_core x) = norm_core x := by
  apply norm_core_fixed
  intro hin
  have h2 := (occB_iff (toS "spol s r o") (norm_core x)).mpr hin
  rw [h] at h2
  cases h2

/-- Witness for the amended C1 at the concrete input
`"Nova Technologies s.r.o."`. -/
theorem norm_core_idempotent_amended_witness :
    occursB (toS "spol s r o") (norm_core (toS "Nova Technologies s.r.o.")) = false ∧
    norm_core (norm_core (toS "Nova Technologies s.r.o.")) =
      norm_core (toS "Nova Technologies s.r.o.") :=
  ⟨by decide, norm_core_idempotent_amended _ (by decide)⟩

/-- C7: suffix and generic-word invariance of normalisation at the spec's
instances: `norm_core "Acme s.r.o." = norm_core "Acme"` and
`norm_core "Acme Group Praha" = norm_core "Acme"`. -/
theorem norm_core_suffix_generic_invariance :
    norm_core (toS "Acme s.r.o.") = norm_core (toS "Acme") ∧
    norm_core (toS "Acme Group Praha") = norm_core (toS "Acme") := by
  exact ⟨by decide, by decide⟩

/-! ### The similarity maximiser -/

theorem extract_fold (sc : Str → Str → ℚ) (c : Str) :
    ∀ (ns : List Str) (acc : Str × ℚ), sc c acc.1 = acc.2 →
      sc c ((ns.foldl (fun a n' => if sc c n' > a.2 then (n', sc c n') else a) acc).1) =
        (ns.foldl (fun a n' => if sc c n' > a.2 then (n', sc c n') else a) acc).2 ∧
      (ns.foldl (fun a n' => if sc c n' > a.2 then (n', sc c n') else a) acc).2 =
        ns.foldl (fun a n' => max a (sc c n')) acc.2 ∧
      ((ns.foldl (fun a n' => if sc c n' > a.2 then (n', sc c n') else a) acc).1 = acc.1 ∨
        (ns.foldl (fun a n' => if sc c n' > a.2 then (n', sc c n') else a) acc).1 ∈ ns)
  | [], _, h => ⟨h, rfl, Or.inl rfl⟩
  | n' :: ns', acc, h => by
    simp only [List.foldl_cons]
    by_cases hgt : sc c n' > acc.2
    · rw [if_pos hgt]
      have hrec := extract_fold sc c ns' (n', sc c n') rfl
      refine ⟨hrec.1, ?_, ?_⟩
      · rw [hrec.2.1, max_eq_right (le_of_lt hgt)]
      · rcases hrec.2.2 with h2 | h2
        · exact Or.inr (by rw [h2]; exact List.mem_cons_self n' ns')
        · exact Or.inr (List.mem_cons_of_mem _ h2)
    · rw [if_neg hgt]
      have hrec := extract_fold sc c ns' acc h
      refine ⟨hrec.1, ?_, ?_⟩
      · rw [hrec.2.1, max_eq_left (not_lt.mp hgt)]
      · rcases hrec.2.2 with h2 | h2
        · exact Or.inl h2
        · exact Or.inr (List.mem_cons_of_mem _ h2)

theorem extractOne_spec (sc : Str → Str → ℚ) (c : Str) (n : Str) (ns : List Str) :
    ∃ m s, extractOne sc c (n :: ns) = some (m, s) ∧
      s = metricBest sc c (n :: ns) ∧ m ∈ n :: ns ∧ sc c m = s := by
  have h := extract_fold sc c ns (n, sc c n) rfl
  refine ⟨_, _, ?_, ?_, ?_, h.1⟩
  · rw [extractOne]
  · rw [metricBest]
    exact h.2.1
  · rcases h.2.2 with h2 | h2
    · rw [h2]
      exact List.mem_cons_self n ns
    · exact List.mem_cons_of_mem _ h2

theorem le_foldl_max {α : Type} (f : α → ℚ) :
    ∀ (l : List α) (a : ℚ), a ≤ l.foldl (fun b x => max b (f x)) a
  | [], _ => le_rfl
  | x :: l, a => le_trans (le_max_left a (f x)) (le_foldl_max f l (max a (f x)))

theorem foldl_max_zero {α : Type} (f : α → ℚ) :
    ∀ (l : List α), (∀ x ∈ l, f x = 0) →
      l.foldl (fun b x => max b (f x)) 0 = 0
  | [], _ => rfl
  | x :: l, h => by
    rw [List.foldl_cons, h x (List.mem_cons_self x l), max_self]
    exact foldl_max_zero f l (fun y hy => h y (List.mem_cons_of_mem _ hy))

theorem metricBest_nonneg (sc : Str → Str → ℚ) (c : Str) {names : List Str}
    (hne : names ≠ []) (h : ∀ n ∈ names, 0 ≤ sc c n) :
    0 ≤ metricBest sc c names := by
  cases names with
  | nil => exact absurd rfl hne
  | cons n ns =>
    rw [metricBest]
    exact le_trans (h n (List.mem_cons_self n ns)) (le_foldl_max _ ns (sc c n))

theorem metricBest_zero (sc : Str → Str → ℚ) (c : Str) {names : List Str}
    (h : ∀ n ∈ names, sc c n = 0) : metricBest sc c names = 0 := by
  cases names with
  | nil => rfl
  | cons n ns =>
    rw [metricBest, h n (List.mem_cons_self n ns)]
    exact foldl_max_zero _ ns (fun y hy => h y (List.mem_cons_of_mem _ hy))

theorem msim_fold (c : Str) (names : List Str) (S : List (Str → Str → ℚ)) :
    ∀ (L : List (Str → Str → ℚ)) (acc : ℚ × Option Str),
      (∀ sc ∈ L, sc ∈ S) → 0 ≤ acc.1 → (acc.2 = none → acc.1 = 0) →
      (∀ m, acc.2 = some m →
        0 < acc.1 ∧ m ∈ names ∧ ∃ sc ∈ S, sc c m = acc.1) →
      0 ≤ (msimStep c names L acc).1 ∧
      ((msimStep c names L acc).2 = none → (msimStep c names L acc).1 = 0) ∧
      (∀ m, (msimStep c names L acc).2 = some m →
        0 < (msimStep c names L acc).1 ∧ m ∈ names ∧
          ∃ sc ∈ S, sc c m = (msimStep c names L acc).1) ∧
      (msimStep c names L acc).1 =
        L.foldl (fun a sc => max a (metricBest sc c names)) acc.1
  | [], _, _, h0, h1, h2 => ⟨h0, h1, h2, rfl⟩
  | sc0 :: L', acc, hS, h0, h1, h2 => by
    have hstep : ∃ acc' : ℚ × Option Str,
        (match extractOne sc0 c names with
          | some (m, score) => if score > acc.1 then (score, some m) else acc
          | none => acc) = acc' ∧
        0 ≤ acc'.1 ∧ (acc'.2 = none → acc'.1 = 0) ∧
        (∀ m, acc'.2 = some m →
          0 < acc'.1 ∧ m ∈ names ∧ ∃ sc ∈ S, sc c m = acc'.1) ∧
        acc'.1 = max acc.1 (metricBest sc0 c names) := by
      cases names with
      | nil =>
        refine ⟨acc, rfl, h0, h1, h2, ?_⟩
        rw [metricBest]
        exact (max_eq_left h0).symm
      | cons n ns =>
        obtain ⟨m0, s0, hE, hs0, hm0, hsc0⟩ := extractOne_spec sc0 c n ns
        rw [hE]
        by_cases hgt : s0 > acc.1
        · refine ⟨(s0, some m0), by exact if_pos hgt, le_of_lt (lt_of_le_of_lt h0 hgt),
            fun hx => Option.noConfusion hx, ?_, ?_⟩
          · intro m hm
            injection hm with hm'
            subst hm'
            exact ⟨lt_of_le_of_lt h0 hgt, hm0,
              sc0, hS sc0 (List.mem_cons_self sc0 L'), hsc0⟩
          · rw [← hs0]
            exact (max_eq_right (le_of_lt hgt)).symm
        · refine ⟨acc, by exact if_neg hgt, h0, h1, h2, ?_⟩
          rw [← hs0]
          exact (max_eq_left (not_lt.mp hgt)).symm
    obtain ⟨acc', hacc', p0, p1, p2, p3⟩ := hstep
    have hrec := msim_fold c names S L' acc'
      (fun sc hsc => hS sc (List.mem_cons_of_mem _ hsc)) p0 p1 p2
    have hfold : msimStep c names (sc0 :: L') acc = msimStep c names L' acc' := by
      simp only [msimStep, List.foldl_cons]
      rw [hacc']
    rw [hfold]
    refine ⟨hrec.1, hrec.2.1, hrec.2.2.1, ?_⟩
    rw [hrec.2.2.2, List.foldl_cons, p3]

theorem max_similarity_eq (scorers : List (Str → Str → ℚ)) (candidate : Str)
    (corpus : List RegRec) :
    max_similarity scorers candidate corpus =
      if corpus.map RegRec.name = [] then ((0 : ℚ), (none : Option Str))
      else msimStep candidate (corpus.map RegRec.name) scorers (0, none) := rfl

/-- C3 (counterexample): for the non-empty corpus `["xyz"]` and the
candidate `"abc"` all four metrics score `0` (rapidfuzz returns `0` on
strings with no common characters), and the scorer returns
`matchedName = none` — not the corpus name that achieved the maximum, as
the claim demands. -/
theorem max_similarity_counterexample :
    (max_similarity [zeroScorer, zeroScorer, zeroScorer, zeroScorer]
      (toS "abc") [⟨toS "xyz", none⟩]).2 = none ∧
    ¬ ∃ rec ∈ ([⟨toS "xyz", none⟩] : List RegRec),
        (max_similarity [zeroScorer, zeroScorer, zeroScorer, zeroScorer]
          (toS "abc") [⟨toS "xyz", none⟩]).2 = some rec.name := by
  exact ⟨by decide, by decide⟩

/-- C3 (amended): on the empty corpus the scorer returns `(0, none)`; on a
non-empty corpus with non-negative metrics the returned score is the
maximum over the metrics of each metric's best score over the corpus
(`specMax`, written from the spec's words), and the returned matched name
is a corpus name achieving that score whenever the score is positive —
when the maximum is `0` the matched name is `none` instead of a corpus
name. -/
theorem max_similarity_amended (scorers : List (Str → Str → ℚ))
    (candidate : Str) (corpus : List RegRec) :
    max_similarity scorers candidate [] = (0, none) ∧
    (corpus ≠ [] → scorers ≠ [] →
      (∀ sc ∈ scorers, ∀ r ∈ corpus, 0 ≤ sc candidate r.name) →
      (max_similarity scorers candidate corpus).1 =
        specMax scorers candidate (corpus.map RegRec.name) ∧
      ((max_similarity scorers candidate corpus).1 = 0 →
        (max_similarity scorers candidate corpus).2 = none) ∧
      (0 < (max_similarity scorers candidate corpus).1 →
        ∃ rec ∈ corpus,
          (max_similarity scorers candidate corpus).2 = some rec.name ∧
          ∃ sc ∈ scorers,
            sc candidate rec.name = (max_similarity scorers candidate corpus).1)) := by
  refine ⟨rfl, ?_⟩
  intro hc hs hnn
  have hnames : corpus.map RegRec.name ≠ [] := by
    intro h
    exact hc (List.map_eq_nil_iff.mp h)
  have hnn' : ∀ sc ∈ scorers, ∀ n ∈ corpus.map RegRec.name,
      0 ≤ sc candidate n := by
    intro sc hsc n hn
    rcases List.mem_map.mp hn with ⟨rec, hrec, rfl⟩
    exact hnn sc hsc rec hrec
  have heq : max_similarity scorers candidate corpus =
      msimStep candidate (corpus.map RegRec.name) scorers (0, none) := by
    rw [max_similarity_eq, if_neg hnames]
  have hfold := msim_fold candidate (corpus.map RegRec.name) scorers scorers
    (0, none) (fun sc hsc => hsc) le_rfl (fun _ => rfl)
    (fun m hm => by cases hm)
  refine ⟨?_, ?_, ?_⟩
  · rw [heq, hfold.2.2.2]
    cases scorers with
    | nil => exact absurd rfl hs
    | cons sc0 rest =>
      have hB0 : 0 ≤ metricBest sc0 candidate (corpus.map RegRec.name) :=
        metricBest_nonneg sc0 candidate hnames
          (hnn' sc0 (List.mem_cons_self sc0 rest))
      rw [List.foldl_cons, max_eq_right hB0, specMax]
  · intro h0
    cases hr2 : (max_similarity scorers candidate corpus).2 with
    | none => rfl
    | some m =>
      rw [heq] at hr2 h0
      have h3 := (hfold.2.2.1 m hr2).1
      rw [h0] at h3
      exact absurd h3 (lt_irrefl 0)
  · intro hpos
    cases hr2 : (max_similarity scorers candidate corpus).2 with
    | none =>
      rw [heq] at hr2 hpos
      rw [hfold.2.1 hr2] at hpos
      exact absurd hpos (lt_irrefl 0)
    | some m =>
      rw [heq] at hr2
      obtain ⟨-, hmem, sc, hsc, hval⟩ := hfold.2.2.1 m hr2
      rcases List.mem_map.mp hmem with ⟨rec, hrec, rfl⟩
      refine ⟨rec, hrec, rfl, sc, hsc, ?_⟩
      rw [heq]
      exact hval

/-- Witness for the amended C3 at a concrete non-empty corpus (the
`"Acme Praha"` / `"Acme Group"` pair with the four metrics at their
library value ≈ 60). -/
theorem max_similarity_amended_witness :
    (max_similarity [constScorer 60, constScorer 60, constScorer 60, constScorer 60]
      (toS "Acme Praha") [⟨toS "Acme Group", none⟩]).1 =
      specMax [constScorer 60, constScorer 60, constScorer 60, constScorer 60]
        (toS "Acme Praha")
        (([⟨toS "Acme Group", none⟩] : List RegRec).map RegRec.name) :=
  ((max_similarity_amended
      [constScorer 60, constScorer 60, constScorer 60, constScorer 60]
      (toS "Acme Praha") [⟨toS "Acme Group", none⟩]).2
    (by simp) (by simp)
    (by
      intro sc hsc r hr
      have h4 : sc = constScorer 60 ∨ sc = constScorer 60 ∨
          sc = constScorer 60 ∨ sc = constScorer 60 := by simpa using hsc
      rcases h4 with rfl | rfl | rfl | rfl <;> norm_num [constScorer])).1

/-- C9: when every metric scores `0` on every corpus record, the scorer
returns `(0, none)` — in particular `matchedName = none` — because a
match is only recorded when a score strictly exceeds the running maximum
initialised to `0`. -/
theorem max_similarity_zero_matched_none (scorers : List (Str → Str → ℚ))
    (candidate : Str) (corpus : List RegRec)
    (h : ∀ sc ∈ scorers, ∀ r ∈ corpus, sc candidate r.name = 0) :
    max_similarity scorers candidate corpus = (0, none) := by
  by_cases hnames : corpus.map RegRec.name = []
  · rw [max_similarity_eq, if_pos hnames]
  · rw [max_similarity_eq, if_neg hnames]
    have hz : ∀ sc ∈ scorers, ∀ n ∈ corpus.map RegRec.name,
        sc candidate n = 0 := by
      intro sc hsc n hn
      rcases List.mem_map.mp hn with ⟨rec, hrec, rfl⟩
      exact h sc hsc rec hrec
    have hfold := msim_fold candidate (corpus.map RegRec.name) scorers scorers
      (0, none) (fun sc hsc => hsc) le_rfl (fun _ => rfl)
      (fun m hm => by cases hm)
    have hzero : (msimStep candidate (corpus.map RegRec.name) scorers (0, none)).1 = 0 := by
      rw [hfold.2.2.2]
      exact foldl_max_zero _ scorers
        (fun sc hsc => metricBest_zero sc candidate (hz sc hsc))
    have hnone : (msimStep candidate (corpus.map RegRec.name) scorers (0, none)).2 = none := by
      cases hr2 : (msimStep candidate (corpus.map RegRec.name) scorers (0, none)).2 with
      | none => rfl
      | some m =>
        have h3 := (hfold.2.2.1 m hr2).1
        rw [hzero] at h3
        exact absurd h3 (lt_irrefl 0)
    exact Prod.ext hzero hnone

/-- Witness for C9 with the four metrics at `0` on a concrete non-empty
corpus. -/
theorem max_similarity_zero_matched_none_witness :
    max_similarity [zeroScorer, zeroScorer, zeroScorer, zeroScorer]
      (toS "abc") [⟨toS "pqr", none⟩] = (0, none) :=
  max_similarity_zero_matched_none
    [zeroScorer, zeroScorer, zeroScorer, zeroScorer]
    (toS "abc") [⟨toS "pqr", none⟩]
    (by
      intro sc hsc r hr
      have h4 : sc = zeroScorer ∨ sc = zeroScorer ∨
          sc = zeroScorer ∨ sc = zeroScorer := by simpa using hsc
      rcases h4 with rfl | rfl | rfl | rfl <;> rfl)

/-! ### The classifier -/

/-- C8: for a fixed threshold, the label the code assigns is monotone in
the similarity score: a higher score never yields a less severe label
(the code's labels are free < similar in severity). -/
theorem classify_monotone (thr s1 s2 : ℚ) (h : s1 ≤ s2) :
    severity (classify_report s1 thr) ≤ severity (classify_report s2 thr) := by
  rw [classify_report, classify_report]
  by_cases h2 : s2 < thr
  · rw [if_pos h2, if_pos (lt_of_le_of_lt h h2)]
  · by_cases h1 : s1 < thr
    · rw [if_pos h1, if_neg h2]
      exact Nat.zero_le 1
    · rw [if_neg h1, if_neg h2]

/-- Witness for C8 at the scores 50 ≤ 60 against the threshold 70. -/
theorem classify_monotone_witness :
    severity (classify_report 50 70) ≤ severity (classify_report 60 70) :=
  classify_monotone 70 50 60 (by norm_num)

/-- C2 (counterexample): the code has no exact-match precedence.  The
candidate `"Acme Praha"` and the corpus record `"Acme Group"` have the
same normalised core (`"acme"`), yet the code classifies the candidate
free, because its similarity score (the four rapidfuzz metrics all score
≈ 57–60 on this pair, modelled by the constant 60) is below the
threshold 70 — not EXACT_MATCH as the claim demands. -/
theorem exact_match_counterexample :
    norm_core (toS "Acme Praha") = norm_core (toS "Acme Group") ∧
    classify_report
      (max_similarity
        [constScorer 60, constScorer 60, constScorer 60, constScorer 60]
        (toS "Acme Praha") [⟨toS "Acme Group", none⟩]).1 70 = Label.free := by
  exact ⟨by decide, by decide⟩

/-- C2 (amended): classification depends only on the numeric score and
the threshold; there is no exact-match precedence.  Even when the
candidate's normalised core equals the normalised core of a corpus
record, the candidate is labelled free exactly when its score is strictly
below the threshold (and similar otherwise). -/
theorem exact_match_no_precedence (scorers : List (Str → Str → ℚ))
    (candidate : Str) (corpus : List RegRec) (thr : ℚ) (rec : RegRec)
    (_hrec : rec ∈ corpus)
    (_hcore : norm_core candidate = norm_core rec.name) :
    classify_report (max_similarity scorers candidate corpus).1 thr =
        Label.free ↔
      (max_similarity scorers candidate corpus).1 < thr := by
  rw [classify_report]
  by_cases h : (max_similarity scorers candidate corpus).1 < thr
  · rw [if_pos h]
    exact iff_of_true rfl h
  · rw [if_neg h]
    exact iff_of_false (by simp) h

/-- Witness for the amended C2 at the `"Acme Praha"` / `"Acme Group"`
exact-core pair. -/
theorem exact_match_no_precedence_witness :
    (classify_report
      (max_similarity
        [constScorer 60, constScorer 60, constScorer 60, constScorer 60]
        (toS "Acme Praha") [⟨toS "Acme Group", none⟩]).1 70 = Label.free ↔
    (max_similarity
      [constScorer 60, constScorer 60, constScorer 60, constScorer 60]
      (toS "Acme Praha") [⟨toS "Acme Group", none⟩]).1 < 70) :=
  exact_match_no_precedence
    [constScorer 60, constScorer 60, constScorer 60, constScorer 60]
    (toS "Acme Praha") [⟨toS "Acme Group", none⟩] 70
    ⟨toS "Acme Group", none⟩ (List.mem_cons_self _ _) (by decide)

/-! ### The strict-filter loop -/

theorem process_batch_spec (scorers : List (Str → Str → ℚ))
    (qf : Str → List RegRec) (thr : ℚ) (desired : ℕ) :
    ∀ (cs : List Str) (res : List SafeRow), res.length < desired →
      (∀ row ∈ res, row.score < thr) →
      (process_batch scorers qf thr desired cs res).length ≤ desired ∧
      (∀ row ∈ process_batch scorers qf thr desired cs res, row.score < thr)
  | [], res, h, hs => ⟨le_of_lt h, hs⟩
  | c :: cs, res, h, hs => by
    simp only [process_batch]
    set R := if (check_candidate scorers qf c).1 < thr
      then res ++ [⟨c, (check_candidate scorers qf c).2,
        (check_candidate scorers qf c).1⟩]
      else res with hR
    have hRlen : R.length ≤ desired := by
      rw [hR]
      by_cases hlt : (check_candidate scorers qf c).1 < thr
      · rw [if_pos hlt]
        simp only [List.length_append, List.length_singleton]
        omega
      · rw [if_neg hlt]
        exact le_of_lt h
    have hRs : ∀ row ∈ R, row.score < thr := by
      rw [hR]
      by_cases hlt : (check_candidate scorers qf c).1 < thr
      · rw [if_pos hlt]
        intro row hrow
        rcases List.mem_append.mp hrow with h1 | h2
        · exact hs row h1
        · rcases List.mem_cons.mp h2 with rfl | h3
          · exact hlt
          · exact absurd h3 (List.not_mem_nil row)
      · rw [if_neg hlt]
        exact hs
    by_cases hstop : desired ≤ R.length
    · rw [if_pos hstop]
      exact ⟨hRlen, hRs⟩
    · rw [if_neg hstop]
      exact process_batch_spec scorers qf thr desired cs R
        (not_le.mp hstop) hRs

theorem safe_loop_spec (gen : ℕ → List Str)
    (scorers : List (Str → Str → ℚ)) (qf : Str → List RegRec)
    (thr : ℚ) (desired : ℕ) :
    ∀ (fuel attempts : ℕ) (res : List SafeRow),
      res.length ≤ desired → (∀ row ∈ res, row.score < thr) →
      (safe_loop gen scorers qf thr desired fuel attempts res).length ≤
        desired ∧
      (∀ row ∈ safe_loop gen scorers qf thr desired fuel attempts res,
        row.score < thr)
  | 0, _, _, h, hs => ⟨h, hs⟩
  | fuel + 1, attempts, res, h, hs => by
    rw [safe_loop]
    by_cases hl : res.length < desired
    · rw [if_pos hl]
      have hpb := process_batch_spec scorers qf thr desired
        (gen (attempts + 1)) res hl hs
      exact safe_loop_spec gen scorers qf thr desired fuel (attempts + 1) _
        hpb.1 hpb.2
    · rw [if_neg hl]
      exact ⟨h, hs⟩

theorem safe_loop_gen_congr (scorers : List (Str → Str → ℚ))
    (qf : Str → List RegRec) (thr : ℚ) (desired : ℕ)
    (gen gen' : ℕ → List Str) :
    ∀ (fuel attempts : ℕ) (res : List SafeRow),
      (∀ i, attempts + 1 ≤ i → i ≤ attempts + fuel → gen i = gen' i) →
      safe_loop gen scorers qf thr desired fuel attempts res =
        safe_loop gen' scorers qf thr desired fuel attempts res
  | 0, _, _, _ => rfl
  | fuel + 1, attempts, res, h => by
    rw [safe_loop, safe_loop]
    by_cases hl : res.length < desired
    · rw [if_pos hl, if_pos hl, h (attempts + 1) le_rfl (by omega)]
      exact safe_loop_gen_congr scorers qf thr desired gen gen' fuel
        (attempts + 1) _ (fun i h1 h2 => h i (by omega) (by omega))
    · rw [if_neg hl, if_neg hl]

theorem process_batch_stuck (scorers : List (Str → Str → ℚ))
    (qf : Str → List RegRec) (thr : ℚ) (desired : ℕ) :
    ∀ (cs : List Str) (res : List SafeRow),
      (∀ c ∈ cs, thr ≤ (check_candidate scorers qf c).1) →
      process_batch scorers qf thr desired cs res = res
  | [], _, _ => rfl
  | c :: cs, res, h => by
    simp only [process_batch]
    rw [if_neg (not_lt.mpr (h c (List.mem_cons_self c cs)))]
    by_cases hstop : desired ≤ res.length
    · rw [if_pos hstop]
    · rw [if_neg hstop]
      exact process_batch_stuck scorers qf thr desired cs res
        (fun d hd => h d (List.mem_cons_of_mem _ hd))

theorem safe_loop_stuck (gen : ℕ → List Str)
    (scorers : List (Str → Str → ℚ)) (qf : Str → List RegRec)
    (thr : ℚ) (desired : ℕ) :
    ∀ (fuel attempts : ℕ) (res : List SafeRow),
      (∀ i, attempts + 1 ≤ i → i ≤ attempts + fuel →
        ∀ c ∈ gen i, thr ≤ (check_candidate scorers qf c).1) →
      safe_loop gen scorers qf thr desired fuel attempts res = res
  | 0, _, _, _ => rfl
  | fuel + 1, attempts, res, h => by
    rw [safe_loop]
    by_cases hl : res.length < desired
    · rw [if_pos hl,
        process_batch_stuck scorers qf thr desired (gen (attempts + 1)) res
          (h (attempts + 1) le_rfl (by omega))]
      exact safe_loop_stuck gen scorers qf thr desired fuel (attempts + 1)
        res (fun i h1 h2 => h i (by omega) (by omega))
    · rw [if_neg hl]

/-- C4: strict-filter termination and bound.  The strict-filter mode
returns at most `desired` rows, every returned row scored strictly below
the free threshold, the result depends on the generation capability only
through rounds 1–6 (so at most 6 generation rounds are ever performed —
the loop is a total function of those rounds), and a generation
capability whose candidates always score at or above the threshold yields
the empty list rather than looping beyond the budget. -/
theorem generate_safe_free_names_spec (gen : ℕ → List Str)
    (scorers : List (Str → Str → ℚ)) (qf : Str → List RegRec)
    (thr : ℚ) (desired : ℕ) :
    (generate_safe_free_names gen scorers qf thr desired).length ≤ desired ∧
    (∀ row ∈ generate_safe_free_names gen scorers qf thr desired,
      row.score < thr) ∧
    (∀ gen' : ℕ → List Str, (∀ i, i ≤ 6 → 1 ≤ i → gen i = gen' i) →
      generate_safe_free_names gen scorers qf thr desired =
        generate_safe_free_names gen' scorers qf thr desired) ∧
    ((∀ i, i ≤ 6 → 1 ≤ i →
        ∀ c ∈ gen i, thr ≤ (check_candidate scorers qf c).1) →
      generate_safe_free_names gen scorers qf thr desired = []) := by
  refine ⟨?_, ?_, ?_, ?_⟩
  · exact (safe_loop_spec gen scorers qf thr desired 6 0 [] (Nat.zero_le _)
      (fun row hrow => absurd hrow (List.not_mem_nil row))).1
  · exact (safe_loop_spec gen scorers qf thr desired 6 0 [] (Nat.zero_le _)
      (fun row hrow => absurd hrow (List.not_mem_nil row))).2
  · intro gen' h
    exact safe_loop_gen_congr scorers qf thr desired gen gen' 6 0 []
      (fun i h1 h2 => h i (by omega) (by omega))
  · intro h
    exact safe_loop_stuck gen scorers qf thr desired 6 0 []
      (fun i h1 h2 => h i (by omega) (by omega))

/-- Witness for C4: a generation capability whose only candidate `"zzz"`
always scores 100 (at or above the threshold 70, the registry returning
the identical record) yields the empty list. -/
theorem generate_safe_free_names_spec_witness :
    generate_safe_free_names genW
      [constScorer 100, constScorer 100, constScorer 100, constScorer 100]
      qfW 70 3 = [] :=
  (generate_safe_free_names_spec genW
    [constScorer 100, constScorer 100, constScorer 100, constScorer 100]
    qfW 70 3).2.2.2 (by decide)

/-! ### The registry client -/

theorem ares_loop_congr (fetch fetch' : ℕ → Except Str (List RawItem)) :
    ∀ (r a : ℕ) (evs : List Ev),
      (∀ i, a ≤ i → i < a + r → fetch i = fetch' i) →
      ares_loop fetch r a evs = ares_loop fetch' r a evs
  | 0, _, _, _ => rfl
  | r + 1, a, evs, h => by
    rw [ares_loop, ares_loop, h a le_rfl (by omega)]
    cases fetch' a with
    | ok items => rfl
    | error e =>
      exact ares_loop_congr fetch fetch' r (a + 1) _
        (fun i h1 h2 => h i (by omega) (by omega))

/-- C5: registry client error handling.  `ares_query` is a total function
of the fetch outcomes of attempts 0–2 (it never consults a later attempt
and never throws — failure is a value, not an exception); when every
attempt fails it returns the empty record list after sleeping 1.2 s,
2.4 s and 4.8 s (base delay 1.2 s, doubling each attempt) and emitting a
warning; when the first attempt succeeds it returns the parsed records
with no sleep or warning. -/
theorem ares_query_spec (fetch : ℕ → Except Str (List RawItem)) :
    ((∀ i, i < 3 → ∃ e, fetch i = Except.error e) →
      ares_query fetch =
        ([], [Ev.slept (6 / 5), Ev.slept (12 / 5), Ev.slept (24 / 5),
          Ev.warned])) ∧
    (∀ items, fetch 0 = Except.ok items →
      ares_query fetch = (parse_items items, [])) ∧
    (∀ fetch' : ℕ → Except Str (List RawItem),
      (∀ i, i < 3 → fetch i = fetch' i) →
      ares_query fetch = ares_query fetch') := by
  refine ⟨?_, ?_, ?_⟩
  · intro h
    obtain ⟨e0, h0⟩ := h 0 (by omega)
    obtain ⟨e1, h1⟩ := h 1 (by omega)
    obtain ⟨e2, h2⟩ := h 2 (by omega)
    rw [ares_query, ares_loop, h0]
    rw [ares_loop, h1]
    rw [ares_loop, h2]
    rw [ares_loop]
    norm_num
  · intro items h0
    rw [ares_query, ares_loop, h0]
  · intro fetch' h
    exact ares_loop_congr fetch fetch' 3 0 []
      (fun i h1 h2 => h i (by omega))

/-- Witness for C5: a fetch that fails on every attempt yields the empty
list, the three exponentially growing sleeps, and the warning. -/
theorem ares_query_spec_witness :
    ares_query (fun _ => Except.error (toS "down")) =
      ([], [Ev.slept (6 / 5), Ev.slept (12 / 5), Ev.slept (24 / 5),
        Ev.warned]) :=
  (ares_query_spec (fun _ => Except.error (toS "down"))).1
    (fun _ _ => ⟨toS "down", rfl⟩)

/-! ### The robust search -/

theorem dedupAux_mem :
    ∀ (l : List RegRec) (ks : List Str) (r : RegRec), r ∈ dedupAux l ks →
      norm_core r.name ≠ [] ∧ norm_core r.name ∉ ks ∧ r ∈ l
  | [], _, r, h => by simp [dedupAux] at h
  | h0 :: t, ks, r, h => by
    simp only [dedupAux] at h
    by_cases hc : norm_core h0.name = [] ∨ norm_core h0.name ∈ ks
    · rw [if_pos hc] at h
      have h2 := dedupAux_mem t ks r h
      exact ⟨h2.1, h2.2.1, List.mem_cons_of_mem _ h2.2.2⟩
    · rw [if_neg hc] at h
      rcases List.mem_cons.mp h with rfl | h2
      · push_neg at hc
        exact ⟨hc.1, hc.2, List.mem_cons_self r t⟩
      · have h3 := dedupAux_mem t _ r h2
        exact ⟨h3.1, fun hk => h3.2.1 (List.mem_cons_of_mem _ hk),
          List.mem_cons_of_mem _ h3.2.2⟩

theorem dedupAux_pairwise :
    ∀ (l : List RegRec) (ks : List Str),
      (dedupAux l ks).Pairwise
        (fun r r' => norm_core r.name ≠ norm_core r'.name)
  | [], _ => by simp [dedupAux]
  | h0 :: t, ks => by
    simp only [dedupAux]
    by_cases hc : norm_core h0.name = [] ∨ norm_core h0.name ∈ ks
    · rw [if_pos hc]
      exact dedupAux_pairwise t ks
    · rw [if_neg hc]
      refine List.Pairwise.cons ?_ (dedupAux_pairwise t _)
      intro r hr heq
      have h2 := dedupAux_mem t _ r hr
      apply h2.2.1
      rw [← heq]
      exact List.mem_cons_self _ _

theorem robust_loop_hits (qf : Str → List RegRec) :
    ∀ (qs seen : List Str) (hits : List RegRec) (calls : List Str),
      (∀ r ∈ hits, norm_core r.name ≠ []) →
      hits.Pairwise (fun r r' => norm_core r.name ≠ norm_core r'.name) →
      (∀ r ∈ (robust_loop qf qs seen hits calls).1,
        norm_core r.name ≠ []) ∧
      (robust_loop qf qs seen hits calls).1.Pairwise
        (fun r r' => norm_core r.name ≠ norm_core r'.name)
  | [], _, _, _, h1, h2 => ⟨h1, h2⟩
  | q :: qs, seen, hits, calls, h1, h2 => by
    simp only [robust_loop]
    by_cases hc : stripL q = [] ∨ (stripL q).map py_lower ∈ seen
    · rw [if_pos hc]
      exact robust_loop_hits qf qs seen hits calls h1 h2
    · rw [if_neg hc]
      exact robust_loop_hits qf qs _ _ _
        (fun r hr => (dedupAux_mem _ [] r hr).1)
        (dedupAux_pairwise _ [])

theorem robust_loop_calls (qf : Str → List RegRec) :
    ∀ (qs seen : List Str) (hits : List RegRec) (calls : List Str),
      (∀ c ∈ calls, c.map py_lower ∈ seen) →
      calls.Pairwise (fun a b => a.map py_lower ≠ b.map py_lower) →
      (robust_loop qf qs seen hits calls).2.Pairwise
        (fun a b => a.map py_lower ≠ b.map py_lower)
  | [], _, _, _, _, h2 => h2
  | q :: qs, seen, hits, calls, h1, h2 => by
    simp only [robust_loop]
    by_cases hc : stripL q = [] ∨ (stripL q).map py_lower ∈ seen
    · rw [if_pos hc]
      exact robust_loop_calls qf qs seen hits calls h1 h2
    · rw [if_neg hc]
      push_neg at hc
      apply robust_loop_calls qf qs _ _ _
      · intro c hcm
        rcases List.mem_append.mp hcm with hcm1 | hcm2
        · exact List.mem_cons_of_mem _ (h1 c hcm1)
        · rcases List.mem_cons.mp hcm2 with rfl | hcm3
          · exact List.mem_cons_self _ _
          · exact absurd hcm3 (List.not_mem_nil c)
      · rw [List.pairwise_append]
        refine ⟨h2, List.pairwise_singleton _ _, ?_⟩
        intro a ha b hb
        rcases List.mem_cons.mp hb with rfl | hb2
        · intro heq
          exact hc.2 (heq ▸ h1 a ha)
        · exact absurd hb2 (List.not_mem_nil b)

/-- C6: robust-search dedup invariant.  For every registry and candidate,
the terms actually sent to the registry are pairwise distinct under
case-insensitive comparison (a term equal to an already-used one triggers
no call), and the returned record list holds at most one record per
distinct normalised core; concretely, a record merged with its
diacritic-variant duplicate (`"Kavárna"` / `"Kavarna"`) yields the single
first-seen record. -/
theorem ares_search_robust_dedup :
    (∀ (qf : Str → List RegRec) (candidate : Str),
      (robust_calls qf candidate).Pairwise
        (fun a b => a.map py_lower ≠ b.map py_lower) ∧
      (ares_search_robust qf candidate).Pairwise
        (fun r r' => norm_core r.name ≠ norm_core r'.name)) ∧
    ares_search_robust kavQf (toS "Kavárna") = [⟨toS "Kavárna", none⟩] := by
  refine ⟨fun qf candidate => ⟨?_, ?_⟩, by decide⟩
  · exact robust_loop_calls qf (build_queries candidate) [] [] []
      (fun c hcm => absurd hcm (List.not_mem_nil c)) List.Pairwise.nil
  · exact (robust_loop_hits qf (build_queries candidate) [] [] []
      (fun r hr => absurd hr (List.not_mem_nil r)) List.Pairwise.nil).2

/-- C10: every record returned by `ares_search_robust` has a non-empty
normalised core — records whose official name normalises to the empty
string are dropped during deduplication and never reach the scorer. -/
theorem ares_search_robust_nonempty_core (qf : Str → List RegRec)
    (candidate : Str) (r : RegRec)
    (h : r ∈ ares_search_robust qf candidate) : norm_core r.name ≠ [] :=
  (robust_loop_hits qf (build_queries candidate) [] [] []
    (fun r' hr' => absurd hr' (List.not_mem_nil r')) List.Pairwise.nil).1 r h

/-- Witness for C10 at the concrete diacritic-duplicate registry. -/
theorem ares_search_robust_nonempty_core_witness :
    (⟨toS "Kavárna", none⟩ : RegRec) ∈
      ares_search_robust kavQf (toS "Kavárna") ∧
    norm_core (toS "Kavárna") ≠ [] :=
  ⟨by decide,
    ares_search_robust_nonempty_core kavQf (toS "Kavárna")
      ⟨toS "Kavárna", none⟩ (by decide)⟩

end CzName
